import Mathlib

/-!
Shallow embedding of `src/opencl_gpupreagg.h` (PG-Strom GPU pre-aggregation
kernels) and proofs about it.  Machine integers are modelled as `Int` with the
wrap-around applied explicitly where the code's overflow behaviour matters;
device-side parallel kernels are modelled by their sequential linearizations
(atomic compare-and-swap and atomic add linearize every interleaving, and we
process workers in ascending global-id order).
-/

namespace PGStrom

/-- Error/status codes used by the kernels (`StromError_*`). Only the codes
referenced by `opencl_gpupreagg.h` are modelled. -/
inductive StromError where
  | Success
  | DataStoreNoSpace
  | DataStoreCorruption
  | CpuReCheck
deriving DecidableEq, Repr

/-- Modelled from the spec: `STROM_SET_ERROR` lives in a header outside this
repository snapshot; per the spec, errors are recorded into the status code
exactly once, first occurrence wins and is never overwritten. -/
def STROM_SET_ERROR (cur e : StromError) : StromError :=
  if cur = StromError.Success then e else cur

/-- Field role tag `GPUPREAGG_FIELD_IS_NULL` (source line 144). -/
def GPUPREAGG_FIELD_IS_NULL : Nat := 0

/-- Field role tag `GPUPREAGG_FIELD_IS_GROUPKEY` (source line 145). -/
def GPUPREAGG_FIELD_IS_GROUPKEY : Nat := 1

/-- Field role tag `GPUPREAGG_FIELD_IS_AGGFUNC` (source line 146). -/
def GPUPREAGG_FIELD_IS_AGGFUNC : Nat := 2

/-! ## gpupreagg_data_move (source lines 348-383)

A row of a `kern_data_store` is modelled by its per-column value words
(`Datum`, modelled as `Int`) and per-column null flags. -/

/-- Embedding of `gpupreagg_data_move`: copy column `colidx` of the source row
to the destination row.  Out-of-range column indices raise
`StromError_DataStoreCorruption` and leave the destination untouched; a null
source sets the destination null flag and zeroes the destination value word;
otherwise value and flag are copied verbatim. -/
def gpupreagg_data_move (errcode : StromError)
    (ncols_src ncols_dst : Nat)
    (src_values : List Int) (src_isnull : List Bool)
    (dst_values : List Int) (dst_isnull : List Bool)
    (colidx : Nat) : StromError × List Int × List Bool :=
  if ncols_src ≤ colidx ∨ ncols_dst ≤ colidx then
    (STROM_SET_ERROR errcode StromError.DataStoreCorruption, dst_values, dst_isnull)
  else if src_isnull.getD colidx false then
    (errcode, dst_values.set colidx 0, dst_isnull.set colidx true)
  else
    (errcode, dst_values.set colidx (src_values.getD colidx 0),
     dst_isnull.set colidx false)

/-! ## Destination-space reservation (source lines 438-453 and 616-625)

Both `gpupreagg_preparation` and `gpupreagg_local_reduction` reserve a
contiguous block of destination rows for a whole work-group with
`base = atomic_add(&kds->nitems, n)` and only afterwards test
`base + n > nrooms`, raising `StromError_DataStoreNoSpace` on overflow.
`gpupreagg_global_reduction` (lines 796-805) does the same on the row map's
`nvalids` counter.  The counter state of the destination store: -/

structure ReserveState where
  nitems : Nat
  nrooms : Nat
deriving DecidableEq, Repr

/-- Embedding of the reservation step: one work-group with `n` surviving rows
performs the atomic add and the subsequent capacity check.  Returns the new
counter state, the reserved base offset, the resulting status code, and
whether the group proceeds to write (project) its rows — the kernels jump to
`out` and skip all writes when the check fails. -/
def gpupreagg_reserve (kds : ReserveState) (n : Nat) (errcode : StromError) :
    ReserveState × Nat × StromError × Bool :=
  let base := kds.nitems
  let kds' : ReserveState := { nitems := kds.nitems + n, nrooms := kds.nrooms }
  if kds.nrooms < base + n then
    (kds', base, STROM_SET_ERROR errcode StromError.DataStoreNoSpace, false)
  else
    (kds', base, errcode, true)

/-! ## Sum overflow detection (source lines 151-155 and 1341-1372)

`cl_short`/`cl_int`/`cl_long` accumulators are modelled as `Int` together with
an explicit two's-complement wrap at half-range `h` (`h = 2^15`, `2^31`,
`2^63`); the machine addition `x + y` of the C code is `wrapAdd h x y`. -/

/-- Two's-complement wrap-around addition over the value range `[-h, h)`. -/
def wrapAdd (h x y : Int) : Int :=
  (x + y + h) % (2 * h) - h

/-- Embedding of `CHECK_OVERFLOW_INT` (source line 151): the operands have the
same sign and the machine sum's sign differs from it. -/
def CHECK_OVERFLOW_INT (h x y : Int) : Bool :=
  (decide (x < 0) == decide (y < 0)) && (decide (wrapAdd h x y < 0) != decide (x < 0))

/-- Embedding of `CHECK_OVERFLOW_FLOAT` (source line 154), generic over the
floating scalar type: the machine sum is infinite while neither operand is. -/
def CHECK_OVERFLOW_FLOAT {α : Type} (fadd : α → α → α) (isinf : α → Bool)
    (x y : α) : Bool :=
  isinf (fadd x y) && !(isinf x) && !(isinf y)

/-- Running-total record `pagg_datum` (source lines 124-136), generic over the
scalar union member in use. -/
structure pagg_datum (α : Type) where
  isnull : Bool
  val : α
deriving DecidableEq, Repr

/-- Embedding of `GPUPREAGG_AGGCALC_PSUM_TEMPLATE` (source lines 1341-1356):
merge `newval` into `accum` under the given machine addition and overflow
predicate; on detected overflow flag `StromError_CpuReCheck` (and still store
the machine sum, as the C code does). -/
def GPUPREAGG_AGGCALC_PSUM_TEMPLATE {α : Type} (add : α → α → α)
    (ovf : α → α → Bool) (errcode : StromError)
    (accum newval : pagg_datum α) : StromError × pagg_datum α :=
  if !accum.isnull then
    if !newval.isnull then
      (if ovf accum.val newval.val then STROM_SET_ERROR errcode StromError.CpuReCheck
       else errcode,
       { isnull := accum.isnull, val := add accum.val newval.val })
    else
      (errcode, accum)
  else if !newval.isnull then
    (errcode, { isnull := newval.isnull, val := newval.val })
  else
    (errcode, accum)

/-- Embedding of `GPUPREAGG_AGGCALC_PSUM_SHORT/INT/LONG` (source lines
1358-1366), parameterized by the half-range `h` of the scalar width. -/
def GPUPREAGG_AGGCALC_PSUM_INTWIDTH (h : Int) (errcode : StromError)
    (accum newval : pagg_datum Int) : StromError × pagg_datum Int :=
  GPUPREAGG_AGGCALC_PSUM_TEMPLATE (wrapAdd h) (CHECK_OVERFLOW_INT h) errcode accum newval

/-- Embedding of `GPUPREAGG_AGGCALC_PSUM_FLOAT/DOUBLE` (source lines
1367-1372), generic over the device's floating type, its addition, and its
infinity test. -/
def GPUPREAGG_AGGCALC_PSUM_FLOATTY {α : Type} (fadd : α → α → α)
    (isinf : α → Bool) (errcode : StromError)
    (accum newval : pagg_datum α) : StromError × pagg_datum α :=
  GPUPREAGG_AGGCALC_PSUM_TEMPLATE fadd (CHECK_OVERFLOW_FLOAT fadd isinf) errcode accum newval

/-! ## Aggregate merge operators and the two-level reduction dataflow

The per-type merge templates `GPUPREAGG_AGGCALC_PMAX/PMIN/PSUM_TEMPLATE`
(source lines 1270-1356) share one null/value semantics; a null accumulator is
modelled as `none`.  The scalar is modelled as an exact `Int`; the sum's
overflow signalling is treated separately (claim C3). -/

/-- Aggregate operators of the reduction claims: partial sum, min, max. -/
inductive AggOp where
  | psum
  | pmin
  | pmax
deriving DecidableEq, Repr

/-- Merge `newval` (second argument) into `accum` (first argument) following
the `GPUPREAGG_AGGCALC_*_TEMPLATE` macros: a null `newval` leaves `accum`; a
null `accum` adopts `newval`; two non-null values combine with the scalar
operator. -/
def mergeOp : AggOp → Option Int → Option Int → Option Int
  | _, accum, none => accum
  | AggOp.pmax, none, some nv => some nv
  | AggOp.pmax, some av, some nv => some (max av nv)
  | AggOp.pmin, none, some nv => some nv
  | AggOp.pmin, some av, some nv => some (min av nv)
  | AggOp.psum, none, some nv => some nv
  | AggOp.psum, some av, some nv => some (av + nv)

/-- Group keys of a row list; a row is a pair of its group-key column and one
aggregate column value. -/
def rowKeys (rows : List (Nat × Option Int)) : List Nat :=
  rows.map Prod.fst

/-- Aggregate-column values of the rows whose group key is `k`. -/
def valuesAt (k : Nat) (rows : List (Nat × Option Int)) : List (Option Int) :=
  (rows.filter (fun r => r.fst == k)).map Prod.snd

/-- Running total over all rows with key `k`, starting from a null
accumulator (`gpupreagg_data_load` starts from the stored value; merging in
discovery order from a null start is the same pairwise merge order modulo
associativity, proved below). -/
def foldKey (op : AggOp) (k : Nat) (rows : List (Nat × Option Int)) :
    Option Int :=
  (valuesAt k rows).foldl (mergeOp op) none

/-- Modelled from the spec: the straightforward serial group-by over the same
rows — one output pair per distinct key carrying the aggregate of all its
rows — against which the two-level reduction is compared. -/
def serialGroupBy (op : AggOp) (rows : List (Nat × Option Int)) :
    List (Nat × Option Int) :=
  (rowKeys rows).dedup.map (fun k => (k, foldKey op k rows))

/-! ## The hash-slot reservation protocol (source lines 96-115, 478-497,
753-786)

A `pagg_hashslot` packs a 32-bit hash and a 32-bit owner index into one
atomically-exchanged word; the empty sentinel is `(hash = 0, index =
0xffffffff)`, distinguishable from every live entry because live indices are
row indices below the batch size — it is modelled as `none`.  Each worker's
row carries the grouping key `key gid`, compared by `gpupreagg_keycomp`
(modelled as equality on the key), and hashes to `H (key gid)` — the
`gpupreagg_hashvalue` contract makes the hash a function of the grouping
keys. -/

/-- A hash slot: `none` is the empty sentinel, a live entry is (hash value,
owner's global row index). -/
abbrev HashSlot := Option (Nat × Nat)

/-- Content of slot `s` of a slot array (out-of-range reads the sentinel). -/
def slotAt (tbl : List HashSlot) (s : Nat) : HashSlot :=
  tbl.getD s none

/-- One worker's retry loop of `gpupreagg_global_reduction` (source lines
757-784), linearized: the atomic compare-and-swap either claims an empty slot
(planting the worker's hash and global id — the worker becomes the owner), or
reads a same-hash occupant whose grouping key compares equal and adopts the
occupant's index as owner, or advances to slot `(index + 1) % hash_size` and
retries.  `fuel` bounds the unbounded C retry loop so the model is total;
`none` means the loop had not finished after `fuel` probes. -/
def probeLoop (key H : Nat → Nat) (S : Nat) (tbl : List HashSlot) (gid : Nat) :
    Nat → Nat → Option (List HashSlot × Nat)
  | 0, _ => none
  | Nat.succ fuel, idx =>
    match slotAt tbl idx with
    | none => some (tbl.set idx (some (H (key gid), gid)), gid)
    | some (h, j) =>
      if h = H (key gid) ∧ key j = key gid then some (tbl, j)
      else probeLoop key H S tbl gid fuel ((idx + 1) % S)

/-- Sequential linearization of the reservation protocol for workers
`0 .. n-1` in global-id order, against a table of `S` slots initialized
all-empty by `gpupreagg_global_preparation` (source lines 478-497); every
probe sequence starts at `hash % hash_size` (source line 757).  Each worker
gets `S` probes of fuel — enough whenever the table does not fill, see the
termination theorem.  Returns the final table and the list of owners
discovered by each worker. -/
def runProtocol (key H : Nat → Nat) (S : Nat) :
    Nat → Option (List HashSlot × List Nat)
  | 0 => some (List.replicate S none, [])
  | Nat.succ n =>
    match runProtocol key H S n with
    | none => none
    | some (tbl, owners) =>
      match probeLoop key H S tbl n S (H (key n) % S) with
      | none => none
      | some (tbl2, o) => some (tbl2, owners ++ [o])

/-- Global id of the first worker that carries the same grouping key as
worker `i`. -/
def firstOcc (key : Nat → Nat) (i : Nat) : Nat :=
  Nat.find (⟨i, rfl⟩ : ∃ j, key j = key i)

/-- Number of distinct grouping keys among workers `0 .. n-1`. -/
def distinctCount (key : Nat → Nat) (n : Nat) : Nat :=
  (((List.range n).map key).toFinset).card

/-- Slot `pos` holds an occupant that does not match key `k`: the probe loop
walks past exactly these slots. -/
def OccNonMatch (key H : Nat → Nat) (tbl : List HashSlot) (pos k : Nat) :
    Prop :=
  ∃ h j, slotAt tbl pos = some (h, j) ∧ ¬(h = H k ∧ key j = k)

/-- Invariant of the reservation table after workers `0 .. n-1` ran: the
table has `S` slots; every live entry was planted by the first worker of its
key class and stores that worker's hash; distinct slots hold distinct keys;
and every processed worker's key is present in a slot reachable by probing —
the slots strictly between the probe start and the key's slot are all
occupied by non-matching entries. -/
def ProtocolInv (key H : Nat → Nat) (S n : Nat) (tbl : List HashSlot) :
    Prop :=
  tbl.length = S ∧
  (∀ s h j, slotAt tbl s = some (h, j) →
    s < S ∧ j < n ∧ j = firstOcc key j ∧ h = H (key j)) ∧
  (∀ s1 s2 h1 j1 h2 j2, slotAt tbl s1 = some (h1, j1) →
    slotAt tbl s2 = some (h2, j2) → key j1 = key j2 → s1 = s2) ∧
  (∀ i, i < n → ∃ t, t < S ∧
    (∃ j, slotAt tbl ((H (key i) + t) % S) = some (H (key i), j) ∧
      key j = key i) ∧
    (∀ u, u < t → OccNonMatch key H tbl ((H (key i) + u) % S) (key i)))

/-! ## Global reduction: row-map reservation, writes, and in-place merging
(source lines 788-847) -/

/-- Workers that own their own slot (`get_global_id(0) == owner_index`): the
group representatives, in ascending global-id order — the order in which the
stairlike prefix sum assigns row-map slots. -/
def selfOwners (owners : List Nat) : List Nat :=
  (List.range owners.length).filter (fun i => owners.getD i 0 == i)

/-- Number of row-map slots reserved by the stairlike prefix sum over the
owner indicator followed by the atomic add on `nvalids` (source lines
795-800); the reservation happens before, and regardless of, the per-column
loop. -/
def rowMapReserved (owners : List Nat) : Nat :=
  (selfOwners owners).length

/-- Row-map slots actually written by `gpupreagg_global_reduction`: the write
`krowmap->rindex[dest_index] = get_global_id(0)` (source line 836) sits
inside the per-column loop and is skipped for every column whose role is not
`GPUPREAGG_FIELD_IS_AGGFUNC` (source lines 821-822), so it happens only when
at least one aggregate-function column exists.  Owner `i`'s `dest_index` is
its rank among the owners, so the written values, slot by slot, are exactly
`selfOwners` in order. -/
def globalRowMapWrites (roles : List Nat) (owners : List Nat) : List Nat :=
  if roles.any (fun r => r == GPUPREAGG_FIELD_IS_AGGFUNC) then
    selfOwners owners
  else []

/-- In-place merge phase of `gpupreagg_global_reduction` on one aggregate
column (source lines 833-845), linearized in global-id order: every non-owner
merges its value into its owner's row via `gpupreagg_global_calc`; the second
component counts the merge invocations. -/
def globalMergeStep (op : AggOp) (owners : List Nat)
    (vals : List (Option Int)) : List (Option Int) × Nat :=
  (List.range owners.length).foldl
    (fun acc i =>
      let o := owners.getD i 0
      if o = i then acc
      else (acc.1.set o (mergeOp op (acc.1.getD o none) (acc.1.getD i none)),
        acc.2 + 1))
    (vals, 0)

/-! ## The probe phase of gpupreagg_local_reduction (source lines 502-608) -/

/-- Shared state of one work-group during `gpupreagg_local_reduction`: the
per-group local slot array `l_hashslot` (sized `2 * get_local_size(0)`,
source line 510, initialized to the empty sentinel at lines 557-564) and the
device-wide slot array `g_hashslot`. -/
structure LocalTables where
  l_hashslot : List HashSlot
  g_hashslot : List HashSlot
deriving DecidableEq, Repr

/-- The retry loop of `gpupreagg_local_reduction` (source lines 567-604): the
slot index is reduced modulo the local hash size `2 * localSize`, but the
`atom_cmpxchg` targets `g_hashslot` (source line 576), and a failed swap
compares against the buddy row
`get_global_id(0) - get_local_id(0) + cur_slot.index` (source line 588). -/
def local_probeLoop (key H : Nat → Nat) (localSize : Nat)
    (g_tbl : List HashSlot) (gid : Nat) :
    Nat → Nat → Option (List HashSlot × Nat)
  | 0, _ => none
  | Nat.succ fuel, idx =>
    match slotAt g_tbl idx with
    | none => some (g_tbl.set idx (some (H (key gid), gid)), gid)
    | some (h, j) =>
      if h = H (key gid) ∧ key (gid - gid % localSize + j) = key gid then
        some (g_tbl, j)
      else
        local_probeLoop key H localSize g_tbl gid fuel ((idx + 1) % (2 * localSize))

/-- One worker's hash-slot claim step of `gpupreagg_local_reduction`, started
at `hash_value % hash_size` with `hash_size = 2 * get_local_size(0)` (source
lines 510 and 571): the local slot array is carried through untouched because
the compare-and-swap loop operates on `g_hashslot`. -/
def local_reduction_claim (key H : Nat → Nat) (localSize : Nat)
    (st : LocalTables) (gid : Nat) : Option (LocalTables × Nat) :=
  match local_probeLoop key H localSize st.g_hashslot gid (2 * localSize)
      (H (key gid) % (2 * localSize)) with
  | none => none
  | some (g2, o) =>
    some ({ l_hashslot := st.l_hashslot, g_hashslot := g2 }, o)

/-- Entry state of the probe phase: `l_hashslot` freshly initialized to the
empty sentinel (source lines 557-564), `g_hashslot` as left by
`gpupreagg_global_preparation` (invoked at source line 528). -/
def local_reduction_init (localSize : Nat) (g : List HashSlot) : LocalTables :=
  { l_hashslot := List.replicate (2 * localSize) none, g_hashslot := g }

/-! ## The two-level reduction as written (source lines 610-699 and 704-847)

The aggregation phase of `gpupreagg_local_reduction` is modelled exactly as
coded: `owner_index` is a global row index (`new_slot.index =
get_global_id(0)`, source line 569, or the adopted `cur_slot.index`, source
line 597), yet the responsibility tests compare it against
`get_local_id(0)` (source lines 616, 646 and 688) and the per-group local
array `l_datum` is indexed by it (source line 679).  Capacity is assumed
sufficient (the NoSpace path is the subject of C2). -/

/-- Sequential linearization of the claim phase of
`gpupreagg_local_reduction` for workers `0 .. n-1` in global-id order: every
work-group contends on the one device-wide `g_hashslot` array because the
compare-and-swap at source line 576 targets it, with probe indices reduced
modulo the local hash size `2 * localSize` (source lines 571 and 601); each
worker gets `2 * localSize` probes of fuel.  Returns the final table and
each worker's discovered `owner_index`. -/
def local_runClaims (key H : Nat → Nat) (localSize : Nat) :
    Nat → Option (List HashSlot × List Nat)
  | 0 => some (List.replicate (2 * localSize) none, [])
  | Nat.succ n =>
    match local_runClaims key H localSize n with
    | none => none
    | some (tbl, owners) =>
      match local_probeLoop key H localSize tbl n (2 * localSize)
          (H (key n) % (2 * localSize)) with
      | none => none
      | some (tbl2, o) => some (tbl2, owners ++ [o])

/-- The aggregation phase of `gpupreagg_local_reduction` for the work-group
based at `base`, as written: `l_datum[lid]` is loaded with the worker's own
value (source lines 668-672); every active worker whose global id differs
from its `owner_index` merges `l_datum[get_local_id(0)]` into
`l_datum[owner_index]` (source lines 675-681) — the local array indexed by a
global row index, so when `owner_index` names the worker's own local slot
the accumulator and the operand alias; and a worker stores
`l_datum[owner_index]` to its reserved destination row together with its
group-key columns exactly when `owner_index == get_local_id(0)` (source
lines 616, 646-655 and 688-695).  Out-of-range local accesses read null and
write nowhere. -/
def local_group_aggregate (op : AggOp) (localSize : Nat) (key : Nat → Nat)
    (owners : List Nat) (vals : List (Option Int)) (n base : Nat) :
    List (Nat × Option Int) :=
  let active := (List.range localSize).filter (fun lid => base + lid < n)
  let ldat0 : List (Option Int) :=
    (List.range localSize).map (fun lid =>
      if base + lid < n then vals.getD (base + lid) none else none)
  let ldat := active.foldl (fun ld lid =>
    let o := owners.getD (base + lid) 0
    if base + lid ≠ o then
      ld.set o (mergeOp op (ld.getD o none) (ld.getD lid none))
    else ld) ldat0
  (active.filter (fun lid => owners.getD (base + lid) 0 == lid)).map
    (fun lid => (key (base + lid), ldat.getD (owners.getD (base + lid) 0) none))

/-- `gpupreagg_local_reduction` as written, over the whole launch: the claim
phase against the shared device-wide table, then each group's aggregation
and store phase; the destination batch is the concatenation of the groups'
emitted rows. -/
def gpupreagg_local_written (op : AggOp) (localSize : Nat) (key H : Nat → Nat)
    (vals : List (Option Int)) (n : Nat) : Option (List (Nat × Option Int)) :=
  match local_runClaims key H localSize n with
  | none => none
  | some (_, owners) =>
    some (((List.range ((n + localSize - 1) / localSize)).map
      (fun g => local_group_aggregate op localSize key owners vals n
        (g * localSize))).flatten)

/-- `gpupreagg_global_reduction` as a row-in/row-out function: the
reservation protocol over the rows' keys determines the owners, every
non-owner merges its value into its owner's row (source lines 833-845), and
the surviving rows are the self-owned representatives with their merged
values (source lines 816-831). -/
def gpupreagg_global_written (op : AggOp) (H : Nat → Nat) (S : Nat)
    (rows : List (Nat × Option Int)) : Option (List (Nat × Option Int)) :=
  match runProtocol (fun i => (rows.getD i (0, none)).fst) H S rows.length with
  | none => none
  | some (_, owners) =>
    some ((selfOwners owners).map (fun i => ((rows.getD i (0, none)).fst,
      (globalMergeStep op owners (rows.map Prod.snd)).fst.getD i none)))

/-- The two-level reduction as written: Local Reduction (all work-groups
sharing the device-wide slot array, per the coded claim phase) followed by
Global Reduction over the emitted rows; `S` is the configured global hash
table size. -/
def gpupreagg_two_level_written (op : AggOp) (localSize : Nat)
    (key H : Nat → Nat) (S : Nat) (vals : List (Option Int)) (n : Nat) :
    Option (List (Nat × Option Int)) :=
  match gpupreagg_local_written op localSize key H vals n with
  | none => none
  | some rows => gpupreagg_global_written op H S rows

/-! ## Sort-based fallback: the bitonic network (source lines 1045-1263)

The three sort kernels realize one global comparator schedule over `rindex`:
`gpupreagg_bitonic_local` runs the phases with `blockSize` up to twice the
work-group size inside each tile (tile base + tile-local index = global
index, and the tile guard `idx1 < localEntry` coincides with the global
guard `idx1 < nitems`), `gpupreagg_bitonic_step` runs one long-range pass,
and `gpupreagg_bitonic_merge` runs the in-tile tail passes of the larger
blocks.  A pass applies its compare-exchanges to pairwise disjoint position
pairs, all workers between two barriers; it is therefore modelled pointwise,
as the simultaneous update of every array position. -/

/-- Partner position of `p` in one compare-exchange pass: the worker formulas
`idx0 = (globalID / halfUnitSize) * unitsz + globalID % halfUnitSize` and
`idx1 = reversing ? ((idx0 & ~unitMask) | (~idx0 & unitMask)) : (idx0 +
halfUnitSize)` (source lines 1101-1105, 1165-1168 and 1239-1240),
re-expressed per array position: for a power-of-two `unitsz`,
`idx0 & ~unitMask = idx0 - idx0 % unitsz` and `~idx0 & unitMask =
(unitsz - 1) - idx0 % unitsz`; a position whose in-unit offset lies below
`unitsz / 2` is some worker's `idx0` (that worker being
`(p / unitsz) * (unitsz / 2) + p % unitsz`), otherwise it is that worker's
`idx1`; the mirror formula is an involution on the unit. -/
def passPartner (unitsz : Nat) (rev : Bool) (p : Nat) : Nat :=
  if rev then (p - p % unitsz) + ((unitsz - 1) - p % unitsz)
  else if p % unitsz < unitsz / 2 then p + unitsz / 2 else p - unitsz / 2

/-- One parallel compare-exchange pass over the whole array, generic in the
combination functions (`lo` kept at the smaller index of a pair, `hi` at the
larger): a pair whose larger index `idx1` falls outside the array is skipped
(`if (nrows <= idx1) goto out`, source lines 1169-1170; `if (idx1 <
localEntry)`, source lines 1107 and 1242). -/
def bitonicPass {α : Type} (lo hi : α → α → α) (unitsz : Nat) (rev : Bool)
    (l : List α) : List α :=
  List.ofFn (fun i : Fin l.length =>
    let q := passPartner unitsz rev (i : Nat)
    if hq : q < l.length then
      (if (i : Nat) < q then lo (l.get i) (l.get ⟨q, hq⟩)
       else hi (l.get ⟨q, hq⟩) (l.get i))
    else l.get i)

/-- Descending straight passes with `unitsz = 2^u, 2^(u-1), ..., 2`: the
non-reversing tail of a block phase (`for (unitSize = blockSize; 2 <=
unitSize; unitSize /= 2)` with `reversing` true only at `unitSize ==
blockSize`, source lines 1094-1105; `gpupreagg_bitonic_merge` runs exactly
these passes for the units up to twice the work-group size, source lines
1228-1254). -/
def bitonicUnits {α : Type} (lo hi : α → α → α) : Nat → List α → List α
  | 0, l => l
  | Nat.succ u, l =>
    bitonicUnits lo hi u (bitonicPass lo hi (2 ^ (u + 1)) false l)

/-- One block phase `blockSize = 2^b`: the reversing pass at `unitSize =
blockSize`, then the descending straight passes. -/
def bitonicPhase {α : Type} (lo hi : α → α → α) : Nat → List α → List α
  | 0, l => l
  | Nat.succ b, l =>
    bitonicUnits lo hi b (bitonicPass lo hi (2 ^ (b + 1)) true l)

/-- The full sorting schedule: block phases `blockSize = 2, 4, ..., 2^K`
(`for (blockSize = 2; blockSize <= prtSize; blockSize *= 2)` in
`gpupreagg_bitonic_local` for the blocks up to twice the work-group size,
then, per the spec's host orchestration, `gpupreagg_bitonic_step` passes for
each larger block down to the work-group range and a closing
`gpupreagg_bitonic_merge`). -/
def bitonicSortSched {α : Type} (lo hi : α → α → α) : Nat → List α → List α
  | 0, l => l
  | Nat.succ b, l => bitonicPhase lo hi (b + 1) (bitonicSortSched lo hi b l)

/-- Row index kept at the smaller index of a compared pair: the kernels swap
when `gpupreagg_keycomp` returns a positive value (source lines 1110-1117,
1176-1181, 1245-1251), i.e. when the key at `idx0` exceeds the key at
`idx1`. -/
def cmpLo (key : Nat → Int) (a b : Nat) : Nat :=
  if key b < key a then b else a

/-- Row index kept at the larger index of a compared pair. -/
def cmpHi (key : Nat → Int) (a b : Nat) : Nat :=
  if key b < key a then a else b

/-- Embedding of `gpupreagg_bitonic_step` (source lines 1141-1184): one
guarded compare-exchange pass over `rindex`; a negative `bitonic_unitsz`
requests the reversing (mirror) pairing and the unit size is its absolute
value (source lines 1152-1155). -/
def gpupreagg_bitonic_step_model (key : Nat → Int) (bitonic_unitsz : Int)
    (rindex : List Nat) : List Nat :=
  bitonicPass (cmpLo key) (cmpHi key) bitonic_unitsz.natAbs
    (decide (bitonic_unitsz < 0)) rindex

/-- The composed sort-fallback schedule on the row-index array, `2^K` being
the power of two covering `nitems`. -/
def gpupreagg_bitonic_sortall (key : Nat → Int) (K : Nat)
    (rindex : List Nat) : List Nat :=
  bitonicSortSched (cmpLo key) (cmpHi key) K rindex

/-- Shape invariant carried across the block phases of the bitonic schedule:
the list is a concatenation of blocks, each of length `u` and satisfying
`P`. -/
inductive Chunks {α : Type} (u : Nat) (P : List α → Prop) : List α → Prop where
  | nil : Chunks u P []
  | cons : ∀ (x l : List α), x.length = u → P x → Chunks u P l →
      Chunks u P (x ++ l)

/-- Shape of a boolean block entering the descending straight passes: the
`true` positions form a single cyclic interval, of start `s` and length `q`
modulo the block length. -/
def IsCyc (l : List Bool) : Prop :=
  ∃ s q, s ≤ l.length ∧ q ≤ l.length ∧
    ∀ i (h : i < l.length),
      (l.get ⟨i, h⟩ = true ↔ ((s ≤ i ∧ i < s + q) ∨ (i + l.length < s + q)))

/-! ## Lemmas about wrap-around addition and overflow detection -/

theorem wrapAdd_of_inRange (h x y : Int) (h0 : 0 < h) (hlo : -h ≤ x + y)
    (hhi : x + y < h) : wrapAdd h x y = x + y := by
  unfold wrapAdd
  rw [Int.emod_eq_of_lt (by omega) (by omega)]
  omega

theorem wrapAdd_of_high (h x y : Int) (h0 : 0 < h) (hlo : h ≤ x + y)
    (hhi : x + y < 3 * h) : wrapAdd h x y = x + y - 2 * h := by
  unfold wrapAdd
  have hrw : x + y + h = (x + y - h) + 2 * h * 1 := by ring
  rw [hrw, Int.add_mul_emod_self_left, Int.emod_eq_of_lt (by omega) (by omega)]
  omega

theorem wrapAdd_of_low (h x y : Int) (h0 : 0 < h) (hlo : -3 * h ≤ x + y)
    (hhi : x + y < -h) : wrapAdd h x y = x + y + 2 * h := by
  unfold wrapAdd
  have hrw : x + y + h = (x + y + 3 * h) + 2 * h * (-1) := by ring
  rw [hrw, Int.add_mul_emod_self_left, Int.emod_eq_of_lt (by omega) (by omega)]
  omega

/-- The sign-based overflow test of `CHECK_OVERFLOW_INT` detects exactly the
additions whose mathematical sum leaves the representable range `[-h, h)`. -/
theorem CHECK_OVERFLOW_INT_iff (h x y : Int) (h0 : 0 < h)
    (hx1 : -h ≤ x) (hx2 : x < h) (hy1 : -h ≤ y) (hy2 : y < h) :
    CHECK_OVERFLOW_INT h x y = true ↔ (x + y < -h ∨ h ≤ x + y) := by
  simp only [CHECK_OVERFLOW_INT, Bool.and_eq_true, beq_iff_eq, bne_iff_ne, ne_eq,
    decide_eq_decide]
  constructor
  · rintro ⟨hsgn, hflip⟩
    by_contra hcon
    push_neg at hcon
    rw [wrapAdd_of_inRange h x y h0 (by omega) (by omega)] at hflip
    omega
  · rintro (hlow | hhigh)
    · rw [wrapAdd_of_low h x y h0 (by omega) (by omega)]
      omega
    · rw [wrapAdd_of_high h x y h0 (by omega) (by omega)]
      omega

/-! ## Claim theorems: C10, C2, C3 -/

/-- C10: for every column index within range of both batches,
`gpupreagg_data_move` copies the source row's value word and null flag to the
destination verbatim when the source is non-null, and when the source is null
it sets the destination null flag and overwrites the destination value word
with a deterministic zero. -/
theorem c10_data_move_copy_or_zero (e : StromError) (ncs ncd : Nat)
    (sv : List Int) (sn : List Bool) (dv : List Int) (dn : List Bool)
    (c : Nat) (hs : c < ncs) (hd : c < ncd) :
    (sn.getD c false = true →
      gpupreagg_data_move e ncs ncd sv sn dv dn c =
        (e, dv.set c 0, dn.set c true)) ∧
    (sn.getD c false = false →
      gpupreagg_data_move e ncs ncd sv sn dv dn c =
        (e, dv.set c (sv.getD c 0), dn.set c false)) := by
  unfold gpupreagg_data_move
  rw [if_neg (by omega)]
  constructor
  · intro hnull
    rw [hnull]
    rfl
  · intro hnn
    rw [hnn]
    rfl

/-- Witness for C10 at a concrete input: a null source column zeroes the
destination word, a non-null one is copied verbatim. -/
theorem c10_witness :
    gpupreagg_data_move StromError.Success 1 1 [5] [true] [9] [false] 0 =
      (StromError.Success, [0], [true]) ∧
    gpupreagg_data_move StromError.Success 1 1 [5] [false] [9] [true] 0 =
      (StromError.Success, [5], [false]) := by
  constructor
  · exact (c10_data_move_copy_or_zero StromError.Success 1 1 [5] [true] [9] [false] 0
      (by decide) (by decide)).1 (by decide)
  · exact (c10_data_move_copy_or_zero StromError.Success 1 1 [5] [false] [9] [true] 0
      (by decide) (by decide)).2 (by decide)

/-- C2 counterexample: with `nrooms = 2` and a reservation of 3 rows, the
kernels' atomic add pushes `nitems` to 3 before the capacity check, so after
the failed attempt the counter exceeds its capacity (`nitems ≤ nrooms` is
violated) even though `NoSpace` is correctly reported — refuting the claim
that counters never exceed capacity and stay unchanged past a failed
attempt. -/
theorem c2_counterexample :
    (gpupreagg_reserve { nitems := 0, nrooms := 2 } 3 StromError.Success).1.nitems = 3 ∧
    ¬ ((gpupreagg_reserve { nitems := 0, nrooms := 2 } 3 StromError.Success).1.nitems ≤
        (gpupreagg_reserve { nitems := 0, nrooms := 2 } 3 StromError.Success).1.nrooms) ∧
    (gpupreagg_reserve { nitems := 0, nrooms := 2 } 3 StromError.Success).2.2.1 =
      StromError.DataStoreNoSpace := by
  decide

/-- Evaluation of the first-error-wins status update when the incoming status
is `Success`. -/
theorem STROM_SET_ERROR_success (k : StromError) :
    STROM_SET_ERROR StromError.Success k = k := by
  unfold STROM_SET_ERROR
  rw [if_pos rfl]

/-- Setting a non-`Success` code on any status leaves a non-`Success`
status. -/
theorem STROM_SET_ERROR_ne_success (e k : StromError)
    (hk : k ≠ StromError.Success) :
    STROM_SET_ERROR e k ≠ StromError.Success := by
  unfold STROM_SET_ERROR
  by_cases hs : e = StromError.Success
  · rw [if_pos hs]
    exact hk
  · rw [if_neg hs]
    exact hs

/-- Evaluation of the reservation step when the capacity check fails. -/
theorem gpupreagg_reserve_of_nospace (kds : ReserveState) (n : Nat)
    (e : StromError) (hcap : kds.nrooms < kds.nitems + n) :
    gpupreagg_reserve kds n e =
      ({ nitems := kds.nitems + n, nrooms := kds.nrooms }, kds.nitems,
       STROM_SET_ERROR e StromError.DataStoreNoSpace, false) := by
  unfold gpupreagg_reserve
  rw [if_pos hcap]

/-- Evaluation of the reservation step when the capacity check passes. -/
theorem gpupreagg_reserve_of_fits (kds : ReserveState) (n : Nat)
    (e : StromError) (hcap : ¬ kds.nrooms < kds.nitems + n) :
    gpupreagg_reserve kds n e =
      ({ nitems := kds.nitems + n, nrooms := kds.nrooms }, kds.nitems, e, true) := by
  unfold gpupreagg_reserve
  rw [if_neg hcap]

/-- C2 (amended): a reservation attempt that would exceed capacity yields
`NoSpace` and the group performs none of its writes, so written data never
exceeds capacity and on success `nitems ≤ nrooms` still holds; however the
counter itself is advanced by the atomic add before the check and may
overshoot `nrooms` after a failed attempt. -/
theorem c2_reserve_nospace (kds : ReserveState) (n : Nat) (e : StromError)
    (he : e = StromError.Success) :
    ((gpupreagg_reserve kds n e).2.2.1 = StromError.DataStoreNoSpace ↔
      kds.nrooms < kds.nitems + n) ∧
    ((gpupreagg_reserve kds n e).2.2.2 = true ↔
      (gpupreagg_reserve kds n e).1.nitems ≤ kds.nrooms) ∧
    ((gpupreagg_reserve kds n e).2.2.2 = true →
      (gpupreagg_reserve kds n e).2.2.1 = StromError.Success) ∧
    (gpupreagg_reserve kds n e).1.nitems = kds.nitems + n := by
  subst he
  by_cases hcap : kds.nrooms < kds.nitems + n
  · rw [gpupreagg_reserve_of_nospace kds n StromError.Success hcap,
      STROM_SET_ERROR_success]
    dsimp only
    exact ⟨⟨fun _ => hcap, fun _ => rfl⟩,
      ⟨(fun hh => nomatch hh), fun hle => absurd hle (by omega)⟩,
      (fun hh => nomatch hh), rfl⟩
  · rw [gpupreagg_reserve_of_fits kds n StromError.Success hcap]
    dsimp only
    exact ⟨⟨(fun hh => nomatch hh), fun hlt => absurd hlt hcap⟩,
      ⟨fun _ => by omega, fun _ => rfl⟩, fun _ => rfl, rfl⟩

/-- Witness for C2's amended theorem at a concrete input: a successful
reservation keeps the counter within capacity. -/
theorem c2_witness :
    ((gpupreagg_reserve { nitems := 1, nrooms := 4 } 2 StromError.Success).2.2.1 =
        StromError.DataStoreNoSpace ↔ (4 : Nat) < 1 + 2) ∧
    ((gpupreagg_reserve { nitems := 1, nrooms := 4 } 2 StromError.Success).2.2.2 = true ↔
      (gpupreagg_reserve { nitems := 1, nrooms := 4 } 2 StromError.Success).1.nitems ≤ 4) ∧
    ((gpupreagg_reserve { nitems := 1, nrooms := 4 } 2 StromError.Success).2.2.2 = true →
      (gpupreagg_reserve { nitems := 1, nrooms := 4 } 2 StromError.Success).2.2.1 =
        StromError.Success) ∧
    (gpupreagg_reserve { nitems := 1, nrooms := 4 } 2 StromError.Success).1.nitems = 1 + 2 :=
  c2_reserve_nospace { nitems := 1, nrooms := 4 } 2 StromError.Success rfl

/-- Evaluation of the integer PSUM merge on two non-null accumulators. -/
theorem psum_intwidth_nonnull (h : Int) (e : StromError) (x y : Int) :
    GPUPREAGG_AGGCALC_PSUM_INTWIDTH h e
        { isnull := false, val := x } { isnull := false, val := y } =
      (if CHECK_OVERFLOW_INT h x y then STROM_SET_ERROR e StromError.CpuReCheck
       else e,
       { isnull := false, val := wrapAdd h x y }) := rfl

/-- Evaluation of the floating PSUM merge on two non-null accumulators. -/
theorem psum_floatty_nonnull {α : Type} (fadd : α → α → α) (isinf : α → Bool)
    (e : StromError) (x y : α) :
    GPUPREAGG_AGGCALC_PSUM_FLOATTY fadd isinf e
        { isnull := false, val := x } { isnull := false, val := y } =
      (if CHECK_OVERFLOW_FLOAT fadd isinf x y then
         STROM_SET_ERROR e StromError.CpuReCheck
       else e,
       { isnull := false, val := fadd x y }) := rfl

/-- C3: a Sum merge of two non-null accumulators whose addition overflows the
integer range (equivalently, same-sign operands whose machine sum flips sign),
or whose floating addition produces an infinity from two finite operands,
flags `RecheckRequired` (`StromError_CpuReCheck`, first error wins) in the
status; conversely a merge that leaves the status at `Success` stored the
exact, un-wrapped sum. -/
theorem c3_psum_overflow_signals :
    (∀ (h x y : Int) (e : StromError) (r : StromError × pagg_datum Int),
      0 < h → -h ≤ x → x < h → -h ≤ y → y < h →
      r = GPUPREAGG_AGGCALC_PSUM_INTWIDTH h e
            { isnull := false, val := x } { isnull := false, val := y } →
      ((x + y < -h ∨ h ≤ x + y) →
        CHECK_OVERFLOW_INT h x y = true ∧ r.1 ≠ StromError.Success ∧
        (e = StromError.Success → r.1 = StromError.CpuReCheck)) ∧
      (r.1 = StromError.Success →
        e = StromError.Success ∧ r.2.val = x + y ∧ -h ≤ x + y ∧ x + y < h)) ∧
    (∀ (α : Type) (fadd : α → α → α) (isinf : α → Bool) (e : StromError) (x y : α)
      (r : StromError × pagg_datum α),
      isinf (fadd x y) = true → isinf x = false → isinf y = false →
      r = GPUPREAGG_AGGCALC_PSUM_FLOATTY fadd isinf e
            { isnull := false, val := x } { isnull := false, val := y } →
      r.1 ≠ StromError.Success ∧
      (e = StromError.Success → r.1 = StromError.CpuReCheck)) := by
  constructor
  · intro h x y e r h0 hx1 hx2 hy1 hy2 hr
    have hovf := CHECK_OVERFLOW_INT_iff h x y h0 hx1 hx2 hy1 hy2
    rw [psum_intwidth_nonnull] at hr
    constructor
    · intro hout
      have hc : CHECK_OVERFLOW_INT h x y = true := hovf.mpr hout
      rw [if_pos hc] at hr
      subst hr
      refine ⟨hc, ?_, ?_⟩
      · exact STROM_SET_ERROR_ne_success e StromError.CpuReCheck (fun hh => nomatch hh)
      · intro hsuc
        subst hsuc
        exact STROM_SET_ERROR_success StromError.CpuReCheck
    · intro hsuc
      by_cases hc : CHECK_OVERFLOW_INT h x y = true
      · rw [if_pos hc] at hr
        subst hr
        exact absurd hsuc
          (STROM_SET_ERROR_ne_success e StromError.CpuReCheck (fun hh => nomatch hh))
      · rw [if_neg hc] at hr
        have hin : ¬ (x + y < -h ∨ h ≤ x + y) := fun hout => hc (hovf.mpr hout)
        push_neg at hin
        subst hr
        exact ⟨hsuc, wrapAdd_of_inRange h x y h0 hin.1 hin.2, hin.1, hin.2⟩
  · intro α fadd isinf e x y r hinf hx hy hr
    have hc : CHECK_OVERFLOW_FLOAT fadd isinf x y = true := by
      unfold CHECK_OVERFLOW_FLOAT
      rw [hinf, hx, hy]
      rfl
    rw [psum_floatty_nonnull, if_pos hc] at hr
    subst hr
    constructor
    · exact STROM_SET_ERROR_ne_success e StromError.CpuReCheck (fun hh => nomatch hh)
    · intro hsuc
      subst hsuc
      exact STROM_SET_ERROR_success StromError.CpuReCheck

/-- Witness for C3 at concrete inputs: `32767 + 1` overflows the 16-bit range
and flags `CpuReCheck`; a modelled float addition that produces an infinity
from finite operands flags `CpuReCheck`. -/
theorem c3_witness :
    (GPUPREAGG_AGGCALC_PSUM_INTWIDTH 32768 StromError.Success
        { isnull := false, val := 32767 } { isnull := false, val := 1 }).1 =
      StromError.CpuReCheck ∧
    (GPUPREAGG_AGGCALC_PSUM_FLOATTY (fun a b : Nat => a + b) (fun v => decide (2 ≤ v))
        StromError.Success { isnull := false, val := 1 } { isnull := false, val := 1 }).1 =
      StromError.CpuReCheck := by
  constructor
  · exact ((c3_psum_overflow_signals.1 32768 32767 1 StromError.Success _
      (by decide) (by decide) (by decide) (by decide) (by decide) rfl).1
      (by decide)).2.2 rfl
  · exact (c3_psum_overflow_signals.2 Nat (fun a b => a + b) (fun v => decide (2 ≤ v))
      StromError.Success 1 1 _ (by decide) (by decide) (by decide) rfl).2 rfl

/-! ## Lemmas: the merge operators form a monoid with null as identity -/

theorem mergeOp_none_right (op : AggOp) (a : Option Int) :
    mergeOp op a none = a := by
  cases op <;> cases a <;> rfl

theorem mergeOp_none_left (op : AggOp) (a : Option Int) :
    mergeOp op none a = a := by
  cases op <;> cases a <;> rfl

theorem mergeOp_assoc (op : AggOp) (a b c : Option Int) :
    mergeOp op (mergeOp op a b) c = mergeOp op a (mergeOp op b c) := by
  cases op <;> cases a <;> cases b <;> cases c <;>
    simp [mergeOp, max_assoc, min_assoc, add_assoc]

theorem foldl_mergeOp_shift (op : AggOp) (a : Option Int)
    (l : List (Option Int)) :
    l.foldl (mergeOp op) a = mergeOp op a (l.foldl (mergeOp op) none) := by
  induction l generalizing a with
  | nil =>
    simp [mergeOp_none_right]
  | cons x xs ih =>
    rw [List.foldl_cons, List.foldl_cons, mergeOp_none_left, ih (mergeOp op a x),
      ih x, mergeOp_assoc]

theorem valuesAt_append (k : Nat) (l1 l2 : List (Nat × Option Int)) :
    valuesAt k (l1 ++ l2) = valuesAt k l1 ++ valuesAt k l2 := by
  simp [valuesAt, List.filter_append]

theorem foldKey_append (op : AggOp) (k : Nat)
    (l1 l2 : List (Nat × Option Int)) :
    foldKey op k (l1 ++ l2) = mergeOp op (foldKey op k l1) (foldKey op k l2) := by
  rw [foldKey, valuesAt_append, List.foldl_append]
  exact foldl_mergeOp_shift op (foldKey op k l1) (valuesAt k l2)

theorem valuesAt_of_not_mem (k : Nat) (rows : List (Nat × Option Int))
    (hk : k ∉ rowKeys rows) : valuesAt k rows = [] := by
  unfold valuesAt
  have hfil : rows.filter (fun r => r.fst == k) = [] := by
    rw [List.filter_eq_nil_iff]
    intro r hr hcontra
    refine hk ?_
    unfold rowKeys
    refine List.mem_map.mpr ⟨r, hr, ?_⟩
    exact eq_of_beq hcontra
  rw [hfil]
  rfl

theorem foldKey_of_not_mem (op : AggOp) (k : Nat)
    (rows : List (Nat × Option Int)) (hk : k ∉ rowKeys rows) :
    foldKey op k rows = none := by
  rw [foldKey, valuesAt_of_not_mem k rows hk]
  rfl

theorem filter_key_of_map_pair (k : Nat) (g : Nat → Option Int) :
    ∀ (l : List Nat), l.Nodup →
      (l.map (fun k2 => (k2, g k2))).filter (fun r => r.fst == k) =
        if k ∈ l then [(k, g k)] else [] := by
  intro l
  induction l with
  | nil =>
    intro _
    rfl
  | cons a l ih =>
    intro hnd
    have hal : a ∉ l := (List.nodup_cons.mp hnd).1
    have hl : l.Nodup := (List.nodup_cons.mp hnd).2
    rw [List.map_cons, List.filter_cons]
    by_cases hak : a = k
    · subst hak
      have hbeq : ((a, g a).fst == a) = true := beq_self_eq_true a
      rw [hbeq, if_pos rfl, ih hl, if_neg hal, if_pos (List.mem_cons_self a l)]
    · have hbeq : ((a, g a).fst == k) = false := by
        simp [hak]
      rw [hbeq, if_neg Bool.false_ne_true, ih hl]
      by_cases hkl : k ∈ l
      · rw [if_pos hkl, if_pos (List.mem_cons_of_mem a hkl)]
      · rw [if_neg hkl, if_neg (fun hcon =>
          (List.mem_cons.mp hcon).elim (fun hh => hak hh.symm) hkl)]

/-- C1: refuted of the code as written — Local Reduction followed by Global
Reduction does not reproduce the serial group-by.  The claim phase CASes the
device-wide `g_hashslot` with indices reduced to the local range (source
line 576) and stores global row ids; the aggregation phase then compares
`get_local_id(0)` against that global `owner_index` (source lines 616, 646,
688) and indexes the per-group `l_datum` array with it (source line 679).
With two same-key rows of values 3 and 4 in two work-groups of size 1,
worker 1 adopts worker 0 as owner, still passes the `lid == owner_index`
responsibility test, and merges `l_datum[0]` into itself — accumulator and
operand alias, doubling its value — so the local stage emits (5,3) and
(5,8), the composition yields 5 ↦ 11, and the serial group-by yields 5 ↦ 7:
the multisets differ. -/
theorem c1_two_level_written_diverges :
    gpupreagg_two_level_written AggOp.psum 1 (fun _ => 5) (fun _ => 7) 4
        [some 3, some 4] 2 = some [(5, some 11)] ∧
    serialGroupBy AggOp.psum [(5, some 3), (5, some 4)] = [(5, some 7)] ∧
    ¬ ([((5 : Nat), some (11 : Int))] : List (Nat × Option Int)).Perm
        [(5, some 7)] := by
  refine ⟨by decide, by decide, by decide⟩

/-! ## Lemmas: slot arrays, first occurrences, distinct key counts -/

theorem slotAt_set_self (tbl : List HashSlot) (pos : Nat) (v : HashSlot)
    (h : pos < tbl.length) : slotAt (tbl.set pos v) pos = v := by
  unfold slotAt
  rw [List.getD_eq_getElem?_getD, List.getElem?_set_self]
  · rfl
  · exact h

theorem slotAt_set_ne (tbl : List HashSlot) (pos t : Nat) (v : HashSlot)
    (h : pos ≠ t) : slotAt (tbl.set pos v) t = slotAt tbl t := by
  unfold slotAt
  rw [List.getD_eq_getElem?_getD, List.getD_eq_getElem?_getD,
    List.getElem?_set_ne h]

theorem slotAt_replicate_none (S s : Nat) :
    slotAt (List.replicate S none) s = none := by
  unfold slotAt
  rcases Nat.lt_or_ge s S with hlt | hge
  · rw [List.getD_eq_getElem?_getD, List.getElem?_replicate]
    simp [hlt]
  · rw [List.getD_eq_default]
    rw [List.length_replicate]
    exact hge

theorem slotAt_ne_of_content_ne (tbl : List HashSlot) (s1 s2 : Nat)
    (h : slotAt tbl s1 ≠ slotAt tbl s2) : s1 ≠ s2 := by
  intro he
  subst he
  exact h rfl

theorem firstOcc_key (key : Nat → Nat) (i : Nat) :
    key (firstOcc key i) = key i :=
  Nat.find_spec (⟨i, rfl⟩ : ∃ j, key j = key i)

theorem firstOcc_le (key : Nat → Nat) (i : Nat) : firstOcc key i ≤ i :=
  Nat.find_le rfl

theorem firstOcc_congr (key : Nat → Nat) (i j : Nat) (hij : key i = key j) :
    firstOcc key i = firstOcc key j := by
  refine le_antisymm ?_ ?_
  · exact Nat.find_le ((firstOcc_key key j).trans hij.symm)
  · exact Nat.find_le ((firstOcc_key key i).trans hij)

theorem firstOcc_self (key : Nat → Nat) (i : Nat) :
    firstOcc key (firstOcc key i) = firstOcc key i :=
  firstOcc_congr key (firstOcc key i) i (firstOcc_key key i)

theorem firstOcc_eq_self_of_new (key : Nat → Nat) (i : Nat)
    (hnew : ∀ p, p < i → key p ≠ key i) : firstOcc key i = i := by
  refine le_antisymm (firstOcc_le key i) ?_
  by_contra hlt
  push_neg at hlt
  exact hnew (firstOcc key i) hlt (firstOcc_key key i)

theorem distinctCount_le_succ (key : Nat → Nat) (n : Nat) :
    distinctCount key n ≤ distinctCount key (n + 1) := by
  unfold distinctCount
  rw [List.range_succ, List.map_append, List.toFinset_append]
  exact Finset.card_le_card Finset.subset_union_left

theorem distinctCount_lt_of_new (key : Nat → Nat) (n : Nat)
    (hnew : ∀ p, p < n → key p ≠ key n) :
    distinctCount key n < distinctCount key (n + 1) := by
  unfold distinctCount
  rw [List.range_succ, List.map_append, List.toFinset_append]
  have hnotmem : key n ∉ ((List.range n).map key).toFinset := by
    rw [List.mem_toFinset]
    intro hmem
    rcases List.mem_map.mp hmem with ⟨p, hp, hkp⟩
    exact hnew p (List.mem_range.mp hp) hkp
  have hunion : ((List.range n).map key).toFinset ∪ ((List.map key [n]).toFinset) =
      insert (key n) ((List.range n).map key).toFinset := by
    rw [List.map_cons, List.map_nil, List.toFinset_cons, List.toFinset_nil,
      insert_emptyc_eq, Finset.union_comm]
    rfl
  rw [hunion, Finset.card_insert_of_not_mem hnotmem]
  omega

theorem probe_positions_cover (S a s : Nat) (hS : 0 < S) (hs : s < S) :
    ∃ t, t < S ∧ (a + t) % S = s := by
  have hr : a % S < S := Nat.mod_lt a hS
  rcases Nat.lt_or_ge s (a % S) with hlt | hge
  · refine ⟨s + S - a % S, by omega, ?_⟩
    have hmod : (a + (s + S - a % S)) % S = (a % S + (s + S - a % S)) % S := by
      rw [Nat.mod_add_mod]
    rw [hmod]
    have hsum : a % S + (s + S - a % S) = s + S := by omega
    rw [hsum, Nat.add_mod_right, Nat.mod_eq_of_lt hs]
  · refine ⟨s - a % S, by omega, ?_⟩
    have hmod : (a + (s - a % S)) % S = (a % S + (s - a % S)) % S := by
      rw [Nat.mod_add_mod]
    rw [hmod]
    have hsum : a % S + (s - a % S) = s := by omega
    rw [hsum, Nat.mod_eq_of_lt hs]

/-! ## Lemmas: unfolding and behaviour of the probe loop -/

theorem probeLoop_zero (key H : Nat → Nat) (S : Nat) (tbl : List HashSlot)
    (gid idx : Nat) : probeLoop key H S tbl gid 0 idx = none := rfl

theorem probeLoop_succ_empty (key H : Nat → Nat) (S : Nat)
    (tbl : List HashSlot) (gid fuel idx : Nat)
    (h : slotAt tbl idx = none) :
    probeLoop key H S tbl gid (Nat.succ fuel) idx =
      some (tbl.set idx (some (H (key gid), gid)), gid) := by
  unfold probeLoop
  rw [h]

theorem probeLoop_succ_occupied (key H : Nat → Nat) (S : Nat)
    (tbl : List HashSlot) (gid fuel idx h0 j0 : Nat)
    (h : slotAt tbl idx = some (h0, j0)) :
    probeLoop key H S tbl gid (Nat.succ fuel) idx =
      if h0 = H (key gid) ∧ key j0 = key gid then some (tbl, j0)
      else probeLoop key H S tbl gid fuel ((idx + 1) % S) := by
  have hunf : probeLoop key H S tbl gid (Nat.succ fuel) idx =
      match slotAt tbl idx with
      | none => some (tbl.set idx (some (H (key gid), gid)), gid)
      | some (h2, j2) =>
        if h2 = H (key gid) ∧ key j2 = key gid then some (tbl, j2)
        else probeLoop key H S tbl gid fuel ((idx + 1) % S) := rfl
  rw [hunf, h]

theorem probe_shift (S start u : Nat) :
    ((start + 1) % S + u) % S = (start + (u + 1)) % S := by
  rw [Nat.mod_add_mod]
  congr 1
  omega

theorem probeLoop_adopt (key H : Nat → Nat) (S : Nat) (tbl : List HashSlot)
    (gid : Nat) :
    ∀ t fuel start, start < S → t < fuel →
      (∀ u, u < t → OccNonMatch key H tbl ((start + u) % S) (key gid)) →
      ∀ j, slotAt tbl ((start + t) % S) = some (H (key gid), j) →
        key j = key gid →
        probeLoop key H S tbl gid fuel start = some (tbl, j) := by
  intro t
  induction t with
  | zero =>
    intro fuel start hstart hfuel hpre j hhit hkey
    cases fuel with
    | zero =>
      exact absurd hfuel (Nat.not_lt_zero 0)
    | succ fuel =>
      have hps : (start + 0) % S = start := by
        rw [Nat.add_zero, Nat.mod_eq_of_lt hstart]
      rw [hps] at hhit
      rw [probeLoop_succ_occupied key H S tbl gid fuel start _ _ hhit,
        if_pos ⟨rfl, hkey⟩]
  | succ t ih =>
    intro fuel start hstart hfuel hpre j hhit hkey
    cases fuel with
    | zero =>
      exact absurd hfuel (Nat.not_lt_zero (t + 1))
    | succ fuel =>
      have hS : 0 < S := by omega
      obtain ⟨h0, j0, heq0, hnm0⟩ := hpre 0 (Nat.succ_pos t)
      have hps : (start + 0) % S = start := by
        rw [Nat.add_zero, Nat.mod_eq_of_lt hstart]
      rw [hps] at heq0
      rw [probeLoop_succ_occupied key H S tbl gid fuel start _ _ heq0,
        if_neg hnm0]
      refine ih fuel ((start + 1) % S) (Nat.mod_lt _ hS)
        (Nat.lt_of_succ_lt_succ hfuel) ?_ j ?_ hkey
      · intro u hu
        rw [probe_shift]
        exact hpre (u + 1) (Nat.succ_lt_succ hu)
      · rw [probe_shift]
        exact hhit

theorem probeLoop_plant (key H : Nat → Nat) (S : Nat) (tbl : List HashSlot)
    (gid : Nat) :
    ∀ t fuel start, start < S → t < fuel →
      (∀ u, u < t → OccNonMatch key H tbl ((start + u) % S) (key gid)) →
      slotAt tbl ((start + t) % S) = none →
      probeLoop key H S tbl gid fuel start =
        some (tbl.set ((start + t) % S) (some (H (key gid), gid)), gid) := by
  intro t
  induction t with
  | zero =>
    intro fuel start hstart hfuel hpre hhit
    cases fuel with
    | zero =>
      exact absurd hfuel (Nat.not_lt_zero 0)
    | succ fuel =>
      have hps : (start + 0) % S = start := by
        rw [Nat.add_zero, Nat.mod_eq_of_lt hstart]
      rw [hps] at hhit ⊢
      rw [probeLoop_succ_empty key H S tbl gid fuel start hhit]
  | succ t ih =>
    intro fuel start hstart hfuel hpre hhit
    cases fuel with
    | zero =>
      exact absurd hfuel (Nat.not_lt_zero (t + 1))
    | succ fuel =>
      have hS : 0 < S := by omega
      obtain ⟨h0, j0, heq0, hnm0⟩ := hpre 0 (Nat.succ_pos t)
      have hps : (start + 0) % S = start := by
        rw [Nat.add_zero, Nat.mod_eq_of_lt hstart]
      rw [hps] at heq0
      rw [probeLoop_succ_occupied key H S tbl gid fuel start _ _ heq0,
        if_neg hnm0]
      have hshift : ((start + 1) % S + t) % S = (start + (t + 1)) % S :=
        probe_shift S start t
      rw [← hshift] at hhit ⊢
      refine ih fuel ((start + 1) % S) (Nat.mod_lt _ hS)
        (Nat.lt_of_succ_lt_succ hfuel) ?_ hhit
      intro u hu
      rw [probe_shift]
      exact hpre (u + 1) (Nat.succ_lt_succ hu)

theorem probeLoop_cases (key H : Nat → Nat) (S : Nat) (tbl : List HashSlot)
    (gid : Nat) :
    ∀ fuel start r, start < S →
      probeLoop key H S tbl gid fuel start = some r →
      ∃ t, t < fuel ∧
        (∀ u, u < t → OccNonMatch key H tbl ((start + u) % S) (key gid)) ∧
        ((slotAt tbl ((start + t) % S) = none ∧
          r = (tbl.set ((start + t) % S) (some (H (key gid), gid)), gid)) ∨
         (∃ j, slotAt tbl ((start + t) % S) = some (H (key gid), j) ∧
           key j = key gid ∧ r = (tbl, j))) := by
  intro fuel
  induction fuel with
  | zero =>
    intro start r hstart hrun
    rw [probeLoop_zero] at hrun
    exact absurd hrun (fun hh => nomatch hh)
  | succ fuel ih =>
    intro start r hstart hrun
    have hS : 0 < S := by omega
    have hps : (start + 0) % S = start := by
      rw [Nat.add_zero, Nat.mod_eq_of_lt hstart]
    cases hslot : slotAt tbl start with
    | none =>
      rw [probeLoop_succ_empty key H S tbl gid fuel start hslot] at hrun
      refine ⟨0, Nat.succ_pos fuel, fun u hu => absurd hu (Nat.not_lt_zero u),
        Or.inl ?_⟩
      rw [hps]
      exact ⟨hslot, (Option.some_inj.mp hrun).symm⟩
    | some entry =>
      obtain ⟨h0, j0⟩ := entry
      rw [probeLoop_succ_occupied key H S tbl gid fuel start _ _ hslot] at hrun
      by_cases hm : h0 = H (key gid) ∧ key j0 = key gid
      · rw [if_pos hm] at hrun
        refine ⟨0, Nat.succ_pos fuel, fun u hu => absurd hu (Nat.not_lt_zero u),
          Or.inr ⟨j0, ?_, hm.2, (Option.some_inj.mp hrun).symm⟩⟩
        rw [hps, hslot, hm.1]
      · rw [if_neg hm] at hrun
        obtain ⟨t, ht, hpre, hcase⟩ :=
          ih ((start + 1) % S) r (Nat.mod_lt _ hS) hrun
        refine ⟨t + 1, Nat.succ_lt_succ ht, ?_, ?_⟩
        · intro u hu
          cases u with
          | zero =>
            rw [hps]
            exact ⟨h0, j0, hslot, hm⟩
          | succ u =>
            rw [← probe_shift]
            exact hpre u (Nat.lt_of_succ_lt_succ hu)
        · rw [← probe_shift]
          exact hcase

/-! ## Lemmas: soundness of the sequentialized protocol run -/

theorem runProtocol_zero (key H : Nat → Nat) (S : Nat) :
    runProtocol key H S 0 = some (List.replicate S none, []) := rfl

theorem getD_map_range (f : Nat → Nat) (n i : Nat) (hi : i < n) :
    ((List.range n).map f).getD i 0 = f i := by
  have hlen : i < ((List.range n).map f).length := by
    rw [List.length_map, List.length_range]
    exact hi
  rw [List.getD_eq_getElem _ _ hlen]
  rw [List.getElem_map, List.getElem_range]

theorem runProtocol_sound (key H : Nat → Nat) (S : Nat) (hS : 0 < S) :
    ∀ n tbl owners, runProtocol key H S n = some (tbl, owners) →
      ProtocolInv key H S n tbl ∧
      owners = (List.range n).map (firstOcc key) := by
  intro n
  induction n with
  | zero =>
    intro tbl owners hrun
    rw [runProtocol_zero] at hrun
    have h1 : (List.replicate S none, ([] : List Nat)) = (tbl, owners) :=
      Option.some_inj.mp hrun
    have htbl : tbl = List.replicate S none := (congrArg Prod.fst h1).symm
    have how : owners = [] := (congrArg Prod.snd h1).symm
    subst htbl
    subst how
    refine ⟨⟨List.length_replicate S none, ?_, ?_, ?_⟩, rfl⟩
    · intro s h j heq
      rw [slotAt_replicate_none] at heq
      exact absurd heq (fun hh => nomatch hh)
    · intro s1 s2 h1 j1 h2 j2 heq1 heq2 hk
      rw [slotAt_replicate_none] at heq1
      exact absurd heq1 (fun hh => nomatch hh)
    · intro i hi
      exact absurd hi (Nat.not_lt_zero i)
  | succ n ih =>
    intro tbl owners hrun
    cases hprev : runProtocol key H S n with
    | none =>
      replace hrun : (none : Option (List HashSlot × List Nat)) =
          some (tbl, owners) := by
        rw [← hrun]
        show _ = runProtocol key H S (Nat.succ n)
        unfold runProtocol
        rw [hprev]
      exact absurd hrun (fun hh => nomatch hh)
    | some prev =>
      obtain ⟨tbl0, ow0⟩ := prev
      replace hrun :
          (match probeLoop key H S tbl0 n S (H (key n) % S) with
           | none => none
           | some (tbl2, o) => some (tbl2, ow0 ++ [o])) = some (tbl, owners) := by
        rw [← hrun]
        show _ = runProtocol key H S (Nat.succ n)
        unfold runProtocol
        rw [hprev]
      cases hpl : probeLoop key H S tbl0 n S (H (key n) % S) with
      | none =>
        rw [hpl] at hrun
        exact absurd hrun (fun hh => nomatch hh)
      | some res =>
        obtain ⟨tbl2, o⟩ := res
        rw [hpl] at hrun
        have h1 : (tbl2, ow0 ++ [o]) = (tbl, owners) := Option.some_inj.mp hrun
        have htbl : tbl = tbl2 := (congrArg Prod.fst h1).symm
        have how : owners = ow0 ++ [o] := (congrArg Prod.snd h1).symm
        rw [htbl, how]
        obtain ⟨⟨hlen0, hentries0, huniq0, hreach0⟩, how0⟩ := ih tbl0 ow0 hprev
        obtain ⟨t, ht, hpre, hcase⟩ :=
          probeLoop_cases key H S tbl0 n S (H (key n) % S) (tbl2, o)
            (Nat.mod_lt _ hS) hpl
        have hposeq : ∀ u : Nat, (H (key n) % S + u) % S = (H (key n) + u) % S :=
          fun u => Nat.mod_add_mod (H (key n)) S u
        simp only [hposeq] at hpre hcase
        rcases hcase with ⟨hempty, heq⟩ | ⟨j, hhit, hkeyj, heq⟩
        · -- plant: key n is new, worker n claims the empty slot it found
          have htbl2 : tbl2 =
              tbl0.set ((H (key n) + t) % S) (some (H (key n), n)) :=
            congrArg Prod.fst heq
          have ho : o = n := congrArg Prod.snd heq
          rw [htbl2, ho]
          have hnew : ∀ p, p < n → key p ≠ key n := by
            intro p hp hkeyp
            obtain ⟨t2, ht2, ⟨j2, hhit2, hkey2⟩, hpre2⟩ := hreach0 p hp
            rw [hkeyp] at hhit2 hkey2 hpre2
            rcases lt_trichotomy t2 t with hlt | heqt | hgt
            · obtain ⟨h3, j3, heq3, hnm3⟩ := hpre t2 hlt
              rw [hhit2] at heq3
              have hh3 : H (key n) = h3 := congrArg Prod.fst (Option.some_inj.mp heq3)
              have hj3 : j2 = j3 := congrArg Prod.snd (Option.some_inj.mp heq3)
              exact hnm3 ⟨hh3.symm, by rw [← hj3]; exact hkey2⟩
            · rw [heqt] at hhit2
              rw [hhit2] at hempty
              exact absurd hempty (fun hh => nomatch hh)
            · obtain ⟨h3, j3, heq3, hnm3⟩ := hpre2 t hgt
              rw [hempty] at heq3
              exact absurd heq3 (fun hh => nomatch hh)
          have hfo : firstOcc key n = n := firstOcc_eq_self_of_new key n hnew
          have hposS : (H (key n) + t) % S < S := Nat.mod_lt _ hS
          have hposlen : (H (key n) + t) % S < tbl0.length := by
            rw [hlen0]
            exact hposS
          refine ⟨⟨?_, ?_, ?_, ?_⟩, ?_⟩
          · rw [List.length_set]
            exact hlen0
          · intro s h j2 heq2
            by_cases hs : s = (H (key n) + t) % S
            · subst hs
              rw [slotAt_set_self tbl0 _ _ hposlen] at heq2
              have hh : H (key n) = h := congrArg Prod.fst (Option.some_inj.mp heq2)
              have hj : n = j2 := congrArg Prod.snd (Option.some_inj.mp heq2)
              subst hj
              exact ⟨hposS, Nat.lt_succ_self n, hfo.symm, hh.symm⟩
            · rw [slotAt_set_ne tbl0 _ s _ (fun hh => hs hh.symm)] at heq2
              obtain ⟨hsS, hjn, hjf, hjh⟩ := hentries0 s h j2 heq2
              exact ⟨hsS, Nat.lt_succ_of_lt hjn, hjf, hjh⟩
          · intro s1 s2 h1 j1 h2 j2 heq1 heq2 hkeys
            by_cases hs1 : s1 = (H (key n) + t) % S
            · by_cases hs2 : s2 = (H (key n) + t) % S
              · rw [hs1, hs2]
              · subst hs1
                rw [slotAt_set_self tbl0 _ _ hposlen] at heq1
                have hj1 : n = j1 := congrArg Prod.snd (Option.some_inj.mp heq1)
                rw [slotAt_set_ne tbl0 _ s2 _ (fun hh => hs2 hh.symm)] at heq2
                obtain ⟨hs2S, hj2n, hjf2, hjh2⟩ := hentries0 s2 h2 j2 heq2
                subst hj1
                exact absurd hkeys.symm (hnew j2 hj2n)
            · by_cases hs2 : s2 = (H (key n) + t) % S
              · subst hs2
                rw [slotAt_set_self tbl0 _ _ hposlen] at heq2
                have hj2 : n = j2 := congrArg Prod.snd (Option.some_inj.mp heq2)
                rw [slotAt_set_ne tbl0 _ s1 _ (fun hh => hs1 hh.symm)] at heq1
                obtain ⟨hs1S, hj1n, hjf1, hjh1⟩ := hentries0 s1 h1 j1 heq1
                subst hj2
                exact absurd hkeys (hnew j1 hj1n)
              · rw [slotAt_set_ne tbl0 _ s1 _ (fun hh => hs1 hh.symm)] at heq1
                rw [slotAt_set_ne tbl0 _ s2 _ (fun hh => hs2 hh.symm)] at heq2
                exact huniq0 s1 s2 h1 j1 h2 j2 heq1 heq2 hkeys
          · intro i hi
            rcases Nat.lt_succ_iff_lt_or_eq.mp hi with hin | heqn
            · obtain ⟨t2, ht2, ⟨j2, hhit2, hkey2⟩, hpre2⟩ := hreach0 i hin
              have hne2 : (H (key n) + t) % S ≠ (H (key i) + t2) % S := by
                intro he
                rw [← he, hempty] at hhit2
                exact absurd hhit2 (fun hh => nomatch hh)
              refine ⟨t2, ht2, ⟨j2, ?_, hkey2⟩, ?_⟩
              · rw [slotAt_set_ne tbl0 _ _ _ hne2]
                exact hhit2
              · intro u hu
                obtain ⟨h3, j3, heq3, hnm3⟩ := hpre2 u hu
                have hne3 : (H (key n) + t) % S ≠ (H (key i) + u) % S := by
                  intro he
                  rw [← he, hempty] at heq3
                  exact absurd heq3 (fun hh => nomatch hh)
                refine ⟨h3, j3, ?_, hnm3⟩
                rw [slotAt_set_ne tbl0 _ _ _ hne3]
                exact heq3
            · rw [heqn]
              refine ⟨t, ht, ⟨n, ?_, rfl⟩, ?_⟩
              · rw [slotAt_set_self tbl0 _ _ hposlen]
              · intro u hu
                obtain ⟨h3, j3, heq3, hnm3⟩ := hpre u hu
                have hne3 : (H (key n) + t) % S ≠ (H (key n) + u) % S := by
                  intro he
                  rw [← he, hempty] at heq3
                  exact absurd heq3 (fun hh => nomatch hh)
                refine ⟨h3, j3, ?_, hnm3⟩
                rw [slotAt_set_ne tbl0 _ _ _ hne3]
                exact heq3
          · rw [how0, List.range_succ, List.map_append]
            have hmap : List.map (firstOcc key) [n] = [n] := by
              rw [List.map_cons, List.map_nil, hfo]
            rw [hmap]
        · -- adopt: the owner of key n's class was already planted
          have htbl2 : tbl2 = tbl0 := congrArg Prod.fst heq
          have ho : o = j := congrArg Prod.snd heq
          rw [htbl2, ho]
          obtain ⟨hsS, hjn, hjf, hjh⟩ := hentries0 _ _ _ hhit
          have hoj : j = firstOcc key n := by
            rw [hjf]
            exact firstOcc_congr key j n hkeyj
          refine ⟨⟨hlen0, ?_, huniq0, ?_⟩, ?_⟩
          · intro s h j2 heq2
            obtain ⟨hsS2, hj2n, hjf2, hjh2⟩ := hentries0 s h j2 heq2
            exact ⟨hsS2, Nat.lt_succ_of_lt hj2n, hjf2, hjh2⟩
          · intro i hi
            rcases Nat.lt_succ_iff_lt_or_eq.mp hi with hin | heqn
            · exact hreach0 i hin
            · rw [heqn]
              exact ⟨t, ht, ⟨j, hhit, hkeyj⟩, hpre⟩
          · rw [how0, List.range_succ, List.map_append]
            have hmap : List.map (firstOcc key) [n] = [j] := by
              rw [List.map_cons, List.map_nil, ← hoj]
            rw [hmap]

theorem exists_empty_slot (key H : Nat → Nat) (S n : Nat)
    (tbl : List HashSlot) (hlen : tbl.length = S)
    (hentries : ∀ s h j, slotAt tbl s = some (h, j) →
      s < S ∧ j < n ∧ j = firstOcc key j ∧ h = H (key j))
    (huniq : ∀ s1 s2 h1 j1 h2 j2, slotAt tbl s1 = some (h1, j1) →
      slotAt tbl s2 = some (h2, j2) → key j1 = key j2 → s1 = s2)
    (hcount : distinctCount key n < S) :
    ∃ s, s < S ∧ slotAt tbl s = none := by
  by_contra hno
  push_neg at hno
  have hocc : ∀ s, s < S → ∃ h j, slotAt tbl s = some (h, j) := by
    intro s hs
    cases hslot : slotAt tbl s with
    | none =>
      exact absurd hslot (hno s hs)
    | some e =>
      obtain ⟨h0, j0⟩ := e
      exact ⟨h0, j0, rfl⟩
  have hcard : (Finset.range S).card ≤ (((List.range n).map key).toFinset).card := by
    refine Finset.card_le_card_of_injOn
      (fun s => ((slotAt tbl s).map (fun e => key e.2)).getD 0) ?_ ?_
    · intro s hs
      obtain ⟨h, j, hslot⟩ := hocc s (Finset.mem_range.mp hs)
      obtain ⟨hsS, hjn, hjf, hjh⟩ := hentries s h j hslot
      show ((slotAt tbl s).map (fun e => key e.2)).getD 0 ∈ _
      rw [hslot]
      show key j ∈ _
      exact List.mem_toFinset.mpr
        (List.mem_map.mpr ⟨j, List.mem_range.mpr hjn, rfl⟩)
    · intro s1 hs1 s2 hs2 heq12
      obtain ⟨h1, j1, hslot1⟩ := hocc s1 (Finset.mem_range.mp (Finset.mem_coe.mp hs1))
      obtain ⟨h2, j2, hslot2⟩ := hocc s2 (Finset.mem_range.mp (Finset.mem_coe.mp hs2))
      refine huniq s1 s2 h1 j1 h2 j2 hslot1 hslot2 ?_
      have heqv : ((slotAt tbl s1).map (fun e => key e.2)).getD 0 =
          ((slotAt tbl s2).map (fun e => key e.2)).getD 0 := heq12
      rw [hslot1, hslot2] at heqv
      exact heqv
  have hd : distinctCount key n = (((List.range n).map key).toFinset).card := rfl
  have hr : (Finset.range S).card = S := Finset.card_range S
  omega

theorem runProtocol_total (key H : Nat → Nat) (S : Nat) (hS : 0 < S) :
    ∀ n, distinctCount key n ≤ S →
      ∃ r, runProtocol key H S n = some r := by
  intro n
  induction n with
  | zero =>
    intro _
    exact ⟨(List.replicate S none, []), rfl⟩
  | succ n ih =>
    intro hcap
    obtain ⟨⟨tbl0, ow0⟩, hprev⟩ :=
      ih (le_trans (distinctCount_le_succ key n) hcap)
    obtain ⟨⟨hlen0, hentries0, huniq0, hreach0⟩, how0⟩ :=
      runProtocol_sound key H S hS n tbl0 ow0 hprev
    have hstart : H (key n) % S < S := Nat.mod_lt _ hS
    have hposeq : ∀ u : Nat, (H (key n) % S + u) % S = (H (key n) + u) % S :=
      fun u => Nat.mod_add_mod (H (key n)) S u
    have hunf : runProtocol key H S (Nat.succ n) =
        match runProtocol key H S n with
        | none => none
        | some (tbl, owners) =>
          match probeLoop key H S tbl n S (H (key n) % S) with
          | none => none
          | some (tbl2, o) => some (tbl2, owners ++ [o]) := rfl
    by_cases hseen : ∃ p, p < n ∧ key p = key n
    · obtain ⟨p, hp, hkeyp⟩ := hseen
      obtain ⟨t2, ht2, ⟨j2, hhit2, hkey2⟩, hpre2⟩ := hreach0 p hp
      rw [hkeyp] at hhit2 hkey2 hpre2
      have hrun2 : probeLoop key H S tbl0 n S (H (key n) % S) =
          some (tbl0, j2) := by
        refine probeLoop_adopt key H S tbl0 n t2 S (H (key n) % S) hstart ht2
          ?_ j2 ?_ hkey2
        · intro u hu
          rw [hposeq u]
          exact hpre2 u hu
        · rw [hposeq t2]
          exact hhit2
      refine ⟨(tbl0, ow0 ++ [j2]), ?_⟩
      rw [hunf, hprev]
      show (match probeLoop key H S tbl0 n S (H (key n) % S) with
            | none => none
            | some (tbl2, o) => some (tbl2, ow0 ++ [o])) = _
      rw [hrun2]
    · push_neg at hseen
      have hcnt : distinctCount key n < S :=
        lt_of_lt_of_le (distinctCount_lt_of_new key n hseen) hcap
      obtain ⟨s, hsS, hsempty⟩ :=
        exists_empty_slot key H S n tbl0 hlen0 hentries0 huniq0 hcnt
      obtain ⟨t0, ht0, hpos0⟩ := probe_positions_cover S (H (key n)) s hS hsS
      have hex : ∃ t, slotAt tbl0 ((H (key n) + t) % S) = none := by
        refine ⟨t0, ?_⟩
        rw [hpos0]
        exact hsempty
      have htmin := Nat.find_spec hex
      have htle : Nat.find hex ≤ t0 := by
        refine Nat.find_le ?_
        rw [hpos0]
        exact hsempty
      have htS : Nat.find hex < S := lt_of_le_of_lt htle ht0
      have hpl : probeLoop key H S tbl0 n S (H (key n) % S) =
          some (tbl0.set ((H (key n) % S + Nat.find hex) % S)
            (some (H (key n), n)), n) := by
        refine probeLoop_plant key H S tbl0 n (Nat.find hex) S
          (H (key n) % S) hstart htS ?_ ?_
        · intro u hu
          rw [hposeq u]
          have hne : ¬ slotAt tbl0 ((H (key n) + u) % S) = none :=
            Nat.find_min hex hu
          cases hslot : slotAt tbl0 ((H (key n) + u) % S) with
          | none =>
            exact absurd hslot hne
          | some e =>
            obtain ⟨h3, j3⟩ := e
            refine ⟨h3, j3, hslot, ?_⟩
            rintro ⟨hh3, hk3⟩
            obtain ⟨hs3, hj3n, hjf3, hjh3⟩ := hentries0 _ _ _ hslot
            exact hseen j3 hj3n hk3
        · rw [hposeq (Nat.find hex)]
          exact htmin
      refine ⟨(tbl0.set ((H (key n) % S + Nat.find hex) % S)
        (some (H (key n), n)), ow0 ++ [n]), ?_⟩
      rw [hunf, hprev]
      show (match probeLoop key H S tbl0 n S (H (key n) % S) with
            | none => none
            | some (tbl2, o) => some (tbl2, ow0 ++ [o])) = _
      rw [hpl]

/-! ## Lemmas: self-owned workers and the in-place merge phase -/

theorem globalMergeStep_of_selfowned (op : AggOp) (owners : List Nat)
    (vals : List (Option Int))
    (hself : ∀ i, i < owners.length → owners.getD i 0 = i) :
    globalMergeStep op owners vals = (vals, 0) := by
  unfold globalMergeStep
  have hgen : ∀ (L : List Nat), (∀ i, i ∈ L → owners.getD i 0 = i) →
      ∀ acc : List (Option Int) × Nat,
        L.foldl
          (fun acc i =>
            let o := owners.getD i 0
            if o = i then acc
            else (acc.1.set o (mergeOp op (acc.1.getD o none) (acc.1.getD i none)),
              acc.2 + 1)) acc = acc := by
    intro L
    induction L with
    | nil =>
      intro _ acc
      rfl
    | cons a L ihL =>
      intro hmem acc
      rw [List.foldl_cons]
      have ha : owners.getD a 0 = a := hmem a (List.mem_cons_self a L)
      have hstep :
          (let o := owners.getD a 0
           if o = a then acc
           else (acc.1.set o (mergeOp op (acc.1.getD o none) (acc.1.getD a none)),
             acc.2 + 1)) = acc := by
        show (if owners.getD a 0 = a then acc
          else (acc.1.set (owners.getD a 0)
            (mergeOp op (acc.1.getD (owners.getD a 0) none) (acc.1.getD a none)),
            acc.2 + 1)) = acc
        rw [if_pos ha]
      rw [hstep]
      exact ihL (fun i hi => hmem i (List.mem_cons_of_mem a hi)) acc
  refine hgen _ ?_ _
  intro i hi
  exact hself i (List.mem_range.mp hi)

theorem mem_selfOwners (owners : List Nat) (j : Nat) :
    j ∈ selfOwners owners ↔ j < owners.length ∧ owners.getD j 0 = j := by
  unfold selfOwners
  rw [List.mem_filter, List.mem_range]
  constructor
  · rintro ⟨hj, hb⟩
    exact ⟨hj, eq_of_beq hb⟩
  · rintro ⟨hj, hb⟩
    refine ⟨hj, ?_⟩
    rw [hb]
    exact beq_self_eq_true j

theorem selfOwners_nodup (owners : List Nat) : (selfOwners owners).Nodup :=
  (List.nodup_range owners.length).filter _

/-! ## Claim theorems: C4, C5, C8, C9, C6 -/

/-- C4: for every row the Reservation Protocol starts at slot `hash % size`,
claims the slot from the empty sentinel by compare-and-swap, adopts a
same-hash equal-key occupant's index, and otherwise advances to
`(index + 1) % size` and retries (these steps are the definition of
`probeLoop`); as a result, whenever the protocol run completes, every worker
discovers an owner carrying its own grouping key, same-key workers agree on
one owner, and that owner is a fixed point — at most one owner exists per
distinct group key. -/
theorem c4_protocol_unique_owner (key H : Nat → Nat) (S n : Nat) (hS : 0 < S)
    (tbl : List HashSlot) (owners : List Nat)
    (hrun : runProtocol key H S n = some (tbl, owners)) :
    owners.length = n ∧
    (∀ i, i < n → key (owners.getD i 0) = key i) ∧
    (∀ i j, i < n → j < n → key i = key j →
      owners.getD i 0 = owners.getD j 0) ∧
    (∀ i, i < n → owners.getD (owners.getD i 0) 0 = owners.getD i 0) := by
  obtain ⟨hInv, how⟩ := runProtocol_sound key H S hS n tbl owners hrun
  have hlen : owners.length = n := by
    rw [how, List.length_map, List.length_range]
  have hgd : ∀ i, i < n → owners.getD i 0 = firstOcc key i := by
    intro i hi
    rw [how]
    exact getD_map_range (firstOcc key) n i hi
  refine ⟨hlen, ?_, ?_, ?_⟩
  · intro i hi
    rw [hgd i hi]
    exact firstOcc_key key i
  · intro i j hi hj hk
    rw [hgd i hi, hgd j hj]
    exact firstOcc_congr key i j hk
  · intro i hi
    have hfin : firstOcc key i < n := lt_of_le_of_lt (firstOcc_le key i) hi
    rw [hgd i hi, hgd (firstOcc key i) hfin]
    exact firstOcc_self key i

/-- Witness for C4: three workers with keys 0, 1, 0 on a 3-slot table; the
owner of worker 0 carries key 0, and workers 0 and 2 (equal keys) agree on
the same owner. -/
theorem c4_witness :
    (([0, 1, 0] : List Nat).getD 0 0) % 2 = 0 % 2 ∧
    ([0, 1, 0] : List Nat).getD 0 0 = ([0, 1, 0] : List Nat).getD 2 0 := by
  have hmain := c4_protocol_unique_owner (fun i => i % 2) (fun k => k) 3 3
    (by decide) [some (0, 0), some (1, 1), none] [0, 1, 0] (by decide)
  exact ⟨hmain.2.1 0 (by decide),
    hmain.2.2.1 0 2 (by decide) (by decide) (by decide)⟩

/-- C5: the retry loop of the Reservation Protocol terminates for every
worker — with `S` probes of fuel per worker, the whole sequential run
completes — provided the number of distinct group keys in the batch does not
exceed the table capacity `S`. -/
theorem c5_probe_loop_terminates (key H : Nat → Nat) (S n : Nat) (hS : 0 < S)
    (hcap : distinctCount key n ≤ S) :
    ∃ r, runProtocol key H S n = some r :=
  runProtocol_total key H S hS n hcap

/-- Witness for C5: four workers with two distinct keys fill a 2-slot table
and every probe loop terminates. -/
theorem c5_witness :
    (runProtocol (fun i => i % 2) (fun k => k) 2 4).isSome = true := by
  obtain ⟨r, hr⟩ := c5_probe_loop_terminates (fun i => i % 2) (fun k => k) 2 4
    (by decide) (by decide)
  rw [hr]
  rfl

/-- C8 counterexample: with a single row (one representative, one reserved
row-map slot) but no aggregate-function column, `gpupreagg_global_reduction`
reserves the slot yet never writes it, because the only write to
`krowmap->rindex` sits inside the per-column loop that skips every
non-aggregate column — refuting the claim that after Global Reduction every
reserved Row Map slot has been written. -/
theorem c8_counterexample :
    rowMapReserved [0] = 1 ∧
    globalRowMapWrites [GPUPREAGG_FIELD_IS_GROUPKEY] [0] = [] ∧
    ¬ ((globalRowMapWrites [GPUPREAGG_FIELD_IS_GROUPKEY] [0]).length =
        rowMapReserved [0]) := by
  decide

/-- C8 (amended): provided at least one column is an aggregate-function
column, the Row Map writes of Global Reduction fill exactly the reserved
slots, without duplicates, with the row indices of the group representatives:
every written index is its own owner and every row's owner is written. -/
theorem c8_rowmap_lists_representatives (key H : Nat → Nat) (S n : Nat)
    (hS : 0 < S) (tbl : List HashSlot) (owners : List Nat) (roles : List Nat)
    (hrun : runProtocol key H S n = some (tbl, owners))
    (hagg : GPUPREAGG_FIELD_IS_AGGFUNC ∈ roles) :
    (globalRowMapWrites roles owners).length = rowMapReserved owners ∧
    (globalRowMapWrites roles owners).Nodup ∧
    (∀ j, j ∈ globalRowMapWrites roles owners → owners.getD j 0 = j) ∧
    (∀ i, i < n → owners.getD i 0 ∈ globalRowMapWrites roles owners) := by
  have hany : roles.any (fun r => r == GPUPREAGG_FIELD_IS_AGGFUNC) = true := by
    rw [List.any_eq_true]
    exact ⟨GPUPREAGG_FIELD_IS_AGGFUNC, hagg, beq_self_eq_true _⟩
  have hwr : globalRowMapWrites roles owners = selfOwners owners := by
    unfold globalRowMapWrites
    rw [if_pos hany]
  obtain ⟨hInv, how⟩ := runProtocol_sound key H S hS n tbl owners hrun
  have hlen : owners.length = n := by
    rw [how, List.length_map, List.length_range]
  have hgd : ∀ i, i < n → owners.getD i 0 = firstOcc key i := by
    intro i hi
    rw [how]
    exact getD_map_range (firstOcc key) n i hi
  rw [hwr]
  refine ⟨rfl, selfOwners_nodup owners, ?_, ?_⟩
  · intro j hj
    exact ((mem_selfOwners owners j).mp hj).2
  · intro i hi
    have hfin : firstOcc key i < n := lt_of_le_of_lt (firstOcc_le key i) hi
    refine (mem_selfOwners owners (owners.getD i 0)).mpr ⟨?_, ?_⟩
    · rw [hgd i hi, hlen]
      exact hfin
    · rw [hgd i hi, hgd (firstOcc key i) hfin]
      exact firstOcc_self key i

/-- Witness for C8's amended theorem: three workers, keys 0, 1, 0, one
aggregate column; the two representatives fill the two reserved slots, and
worker 2's owner is listed. -/
theorem c8_witness :
    (globalRowMapWrites [2] [0, 1, 0]).length = rowMapReserved [0, 1, 0] ∧
    ([0, 1, 0] : List Nat).getD 2 0 ∈ globalRowMapWrites [2] [0, 1, 0] := by
  have hmain := c8_rowmap_lists_representatives (fun i => i % 2) (fun k => k)
    3 3 (by decide) [some (0, 0), some (1, 1), none] [0, 1, 0] [2]
    (by decide) (by decide)
  exact ⟨hmain.1, hmain.2.2.2 2 (by decide)⟩

/-- C9: on a batch whose rows carry pairwise distinct group keys, Global
Reduction leaves every row's aggregate values unchanged and invokes the merge
function zero times — every worker is its own owner. -/
theorem c9_global_reduction_identity_on_distinct (key H : Nat → Nat)
    (S n : Nat) (hS : 0 < S) (tbl : List HashSlot) (owners : List Nat)
    (op : AggOp) (vals : List (Option Int))
    (hrun : runProtocol key H S n = some (tbl, owners))
    (hdist : ∀ i j, i < n → j < n → key i = key j → i = j) :
    globalMergeStep op owners vals = (vals, 0) := by
  obtain ⟨hInv, how⟩ := runProtocol_sound key H S hS n tbl owners hrun
  have hlen : owners.length = n := by
    rw [how, List.length_map, List.length_range]
  refine globalMergeStep_of_selfowned op owners vals ?_
  intro i hi
  rw [hlen] at hi
  rw [how, getD_map_range (firstOcc key) n i hi]
  exact hdist (firstOcc key i) i (lt_of_le_of_lt (firstOcc_le key i) hi) hi
    (firstOcc_key key i)

/-- Witness for C9: two rows with distinct keys; the merge phase returns the
values unchanged with a merge count of zero. -/
theorem c9_witness :
    globalMergeStep AggOp.psum [0, 1] [some 5, some 7] =
      ([some 5, some 7], 0) :=
  c9_global_reduction_identity_on_distinct (fun i => i) (fun k => k) 3 2
    (by decide) [some (0, 0), some (1, 1), none] [0, 1] AggOp.psum
    [some 5, some 7] (by decide) (fun i j hi hj hk => hk)

/-- C6: evaluation of the local-reduction claim step at a concrete input
(one work-group of size 1, one row with hash 7, local hash size
`2 * 1 = 2`): the compare-and-swap plants the entry in the device-wide
`g_hashslot` array — at index `7 % 2 = 1`, inside the local index range —
while the per-group `l_hashslot` array, which the kernel initializes for this
purpose, stays all-sentinel.  This exhibits the divergence from the claim
that the claim/probe compare-and-swap operates on the local table. -/
theorem c6_local_probe_targets_global_table :
    local_reduction_claim (fun g => 7) (fun k => k) 1
        (local_reduction_init 1 (List.replicate 4 none)) 0 =
      some ({ l_hashslot := [none, none],
              g_hashslot := [none, some (7, 0), none, none] }, 0) ∧
    (local_reduction_init 1 (List.replicate 4 none)).l_hashslot =
      List.replicate 2 none ∧
    List.replicate 4 (none : HashSlot) ≠ [none, some (7, 0), none, none] := by
  decide

/-! ## Lemmas: pointwise behaviour of a compare-exchange pass -/

theorem length_bitonicPass {α : Type} (lo hi : α → α → α) (u : Nat)
    (rev : Bool) (l : List α) :
    (bitonicPass lo hi u rev l).length = l.length := by
  unfold bitonicPass
  rw [List.length_ofFn]

theorem getElem_bitonicPass {α : Type} (lo hi : α → α → α) (u : Nat)
    (rev : Bool) (l : List α) (p : Nat) (hp : p < l.length) :
    (bitonicPass lo hi u rev l).get
        ⟨p, by rw [length_bitonicPass]; exact hp⟩ =
      (if hq : passPartner u rev p < l.length then
        (if p < passPartner u rev p then
          lo (l.get ⟨p, hp⟩) (l.get ⟨passPartner u rev p, hq⟩)
         else hi (l.get ⟨passPartner u rev p, hq⟩) (l.get ⟨p, hp⟩))
       else l.get ⟨p, hp⟩) := by
  unfold bitonicPass
  rw [List.get_ofFn]
  rfl

theorem passPartner_mirror_of_lt (u p : Nat) (hp : p < u) :
    passPartner u true p = u - 1 - p := by
  unfold passPartner
  rw [if_pos rfl, Nat.mod_eq_of_lt hp]
  omega

theorem passPartner_straight_lo (u p : Nat) (hp : p < u) (hlt : p < u / 2) :
    passPartner u false p = p + u / 2 := by
  unfold passPartner
  rw [if_neg (fun hh => nomatch hh), Nat.mod_eq_of_lt hp, if_pos hlt]

theorem passPartner_straight_hi (u p : Nat) (hp : p < u) (hge : ¬ p < u / 2) :
    passPartner u false p = p - u / 2 := by
  unfold passPartner
  rw [if_neg (fun hh => nomatch hh), Nat.mod_eq_of_lt hp, if_neg hge]

theorem passPartner_lt (u p : Nat) (hu : 0 < u) (hp : p < u) (rev : Bool) :
    passPartner u rev p < u := by
  cases rev with
  | true =>
    rw [passPartner_mirror_of_lt u p hp]
    omega
  | false =>
    by_cases hlt : p < u / 2
    · rw [passPartner_straight_lo u p hp hlt]
      omega
    · rw [passPartner_straight_hi u p hp hlt]
      omega

theorem passPartner_translate (u A p : Nat) (hA : u ∣ A) (rev : Bool) :
    passPartner u rev (A + p) = A + passPartner u rev p := by
  obtain ⟨c, hc⟩ := hA
  have hmod : (A + p) % u = p % u := by
    rw [hc, Nat.mul_add_mod]
  have hple : p % u ≤ p := Nat.mod_le p u
  have hple2 : (A + p) % u ≤ A + p := Nat.mod_le _ u
  cases rev with
  | true =>
    show (A + p) - (A + p) % u + (u - 1 - (A + p) % u) =
      A + (p - p % u + (u - 1 - p % u))
    rw [hmod]
    omega
  | false =>
    show (if (A + p) % u < u / 2 then A + p + u / 2 else A + p - u / 2) =
      A + (if p % u < u / 2 then p + u / 2 else p - u / 2)
    rw [hmod]
    by_cases hlt : p % u < u / 2
    · rw [if_pos hlt, if_pos hlt]
      omega
    · rw [if_neg hlt, if_neg hlt]
      have hge : u / 2 ≤ p % u := Nat.le_of_not_lt hlt
      omega

theorem passPartner_block_lt (u p L : Nat) (hu : 0 < u) (hd : u ∣ L)
    (hp : p < L) (rev : Bool) : passPartner u rev p < L := by
  obtain ⟨c, hc⟩ := hd
  have hsplit : p = u * (p / u) + p % u := (Nat.div_add_mod p u).symm
  have hmul : u ∣ u * (p / u) := ⟨p / u, rfl⟩
  have hr : p % u < u := Nat.mod_lt p hu
  have hpr := passPartner_lt u (p % u) hu hr rev
  have hdivlt : p / u < c := by
    refine Nat.div_lt_of_lt_mul ?_
    rw [← hc]
    exact hp
  have hblock : u * (p / u) + u ≤ L := by
    have h1 : p / u + 1 ≤ c := hdivlt
    have h2 : u * (p / u) + u = u * (p / u + 1) := by ring
    rw [hc, h2]
    exact Nat.mul_le_mul_left u h1
  calc passPartner u rev p = passPartner u rev (u * (p / u) + p % u) := by
        rw [← hsplit]
  _ = u * (p / u) + passPartner u rev (p % u) :=
        passPartner_translate u _ _ hmul rev
  _ < L := by omega


/-! ## Lemmas: every pass permutes the array (each compare-exchange keeps
both elements, on pairwise disjoint position pairs) -/

theorem two_pow_pos (n : Nat) : 0 < 2 ^ n :=
  Nat.pos_pow_of_pos n (by norm_num)

theorem two_pow_succ_even (b : Nat) : 2 ^ (b + 1) % 2 = 0 := by
  rw [Nat.pow_succ]
  omega

theorem passPartner_invol_of_lt (u r : Nat) (hu : 0 < u) (heven : u % 2 = 0)
    (hr : r < u) (rev : Bool) :
    passPartner u rev (passPartner u rev r) = r := by
  cases rev with
  | true =>
    rw [passPartner_mirror_of_lt u r hr,
        passPartner_mirror_of_lt u (u - 1 - r) (by omega)]
    omega
  | false =>
    by_cases hlt : r < u / 2
    · rw [passPartner_straight_lo u r hr hlt]
      rw [passPartner_straight_hi u (r + u / 2) (by omega) (by omega)]
      omega
    · rw [passPartner_straight_hi u r hr hlt]
      rw [passPartner_straight_lo u (r - u / 2) (by omega) (by omega)]
      omega

theorem passPartner_invol (u p : Nat) (hu : 0 < u) (heven : u % 2 = 0)
    (rev : Bool) : passPartner u rev (passPartner u rev p) = p := by
  have hsplit : p = u * (p / u) + p % u := (Nat.div_add_mod p u).symm
  have hmul : u ∣ u * (p / u) := ⟨p / u, rfl⟩
  have hr : p % u < u := Nat.mod_lt p hu
  calc passPartner u rev (passPartner u rev p)
      = passPartner u rev (passPartner u rev (u * (p / u) + p % u)) := by
        rw [← hsplit]
  _ = passPartner u rev (u * (p / u) + passPartner u rev (p % u)) := by
        rw [passPartner_translate u _ _ hmul rev]
  _ = u * (p / u) + passPartner u rev (passPartner u rev (p % u)) :=
        passPartner_translate u _ _ hmul rev
  _ = u * (p / u) + p % u := by
        rw [passPartner_invol_of_lt u (p % u) hu heven hr rev]
  _ = p := hsplit.symm

theorem count_ofFn {α : Type} [DecidableEq α] (a : α) :
    ∀ (n : Nat) (f : Fin n → α),
      (List.ofFn f).count a = ∑ i : Fin n, (if f i = a then 1 else 0) := by
  intro n
  induction n with
  | zero =>
    intro f
    rw [List.ofFn_zero]
    simp
  | succ n ih =>
    intro f
    rw [List.ofFn_succ, List.count_cons, ih (fun i => f i.succ),
        Fin.sum_univ_succ]
    simp only [beq_iff_eq]
    by_cases h : f 0 = a
    · rw [if_pos h]
      omega
    · rw [if_neg h]
      omega

theorem bitonicPass_perm {α : Type} [DecidableEq α] (lo hi : α → α → α)
    (hex : ∀ a b, (lo a b = a ∧ hi a b = b) ∨ (lo a b = b ∧ hi a b = a))
    (u : Nat) (hu : 0 < u) (heven : u % 2 = 0) (rev : Bool) (l : List α) :
    (bitonicPass lo hi u rev l).Perm l := by
  rw [List.perm_iff_count]
  intro a
  let f : Fin l.length → α := fun i =>
    if hq : passPartner u rev (i : Nat) < l.length then
      (if (i : Nat) < passPartner u rev (i : Nat) then
        lo (l.get i) (l.get ⟨passPartner u rev (i : Nat), hq⟩)
       else hi (l.get ⟨passPartner u rev (i : Nat), hq⟩) (l.get i))
    else l.get i
  have hpass : bitonicPass lo hi u rev l = List.ofFn f := rfl
  have hl : l.count a = (List.ofFn l.get).count a := by rw [List.ofFn_get]
  rw [hpass, hl, count_ofFn, count_ofFn]
  let σ : Fin l.length → Fin l.length := fun i =>
    if h : passPartner u rev (i : Nat) < l.length then
      ⟨passPartner u rev (i : Nat), h⟩
    else i
  have hfeval : ∀ (p : Nat) (hp : p < l.length)
      (hq2 : passPartner u rev p < l.length),
      f ⟨p, hp⟩ = (if p < passPartner u rev p then
        lo (l.get ⟨p, hp⟩) (l.get ⟨passPartner u rev p, hq2⟩)
       else hi (l.get ⟨passPartner u rev p, hq2⟩) (l.get ⟨p, hp⟩)) :=
    fun p hp hq2 => dif_pos hq2
  have hσ : Function.Involutive σ := by
    intro i
    by_cases h : passPartner u rev (i : Nat) < l.length
    · have e1 : σ i = ⟨passPartner u rev (i : Nat), h⟩ := dif_pos h
      rw [e1]
      have hpp : passPartner u rev (passPartner u rev (i : Nat)) = (i : Nat) :=
        passPartner_invol u (i : Nat) hu heven rev
      have h2 : passPartner u rev
          ((⟨passPartner u rev (i : Nat), h⟩ : Fin l.length) : Nat) <
            l.length := by
        show passPartner u rev (passPartner u rev (i : Nat)) < l.length
        rw [hpp]
        exact i.2
      have e2 : σ ⟨passPartner u rev (i : Nat), h⟩ =
          ⟨passPartner u rev (passPartner u rev (i : Nat)), h2⟩ := dif_pos h2
      rw [e2]
      exact Fin.ext hpp
    · have e1 : σ i = i := dif_neg h
      rw [e1, e1]
  have hpair : ∀ i : Fin l.length,
      (if f i = a then 1 else 0) + (if f (σ i) = a then 1 else 0) =
      (if l.get i = a then 1 else 0) + (if l.get (σ i) = a then 1 else 0) := by
    intro i
    by_cases hq : passPartner u rev (i : Nat) < l.length
    · have hσi : σ i = ⟨passPartner u rev (i : Nat), hq⟩ := dif_pos hq
      have hpp : passPartner u rev (passPartner u rev (i : Nat)) = (i : Nat) :=
        passPartner_invol u (i : Nat) hu heven rev
      have hcond : passPartner u rev (passPartner u rev (i : Nat)) <
          l.length := by
        rw [hpp]
        exact i.2
      have hfi : f i = (if (i : Nat) < passPartner u rev (i : Nat) then
          lo (l.get i) (l.get ⟨passPartner u rev (i : Nat), hq⟩)
         else hi (l.get ⟨passPartner u rev (i : Nat), hq⟩) (l.get i)) :=
        hfeval (i : Nat) i.2 hq
      have hfσ := hfeval (passPartner u rev (i : Nat)) hq hcond
      have hfin : (⟨passPartner u rev (passPartner u rev (i : Nat)), hcond⟩ :
          Fin l.length) = i := Fin.ext hpp
      rw [congrArg l.get hfin] at hfσ
      rw [hpp] at hfσ
      rw [hσi]
      rcases Nat.lt_trichotomy (i : Nat) (passPartner u rev (i : Nat)) with
        hlt | heq | hgt
      · rw [if_pos hlt] at hfi
        rw [if_neg (by omega)] at hfσ
        rw [hfi, hfσ]
        rcases hex (l.get i) (l.get ⟨passPartner u rev (i : Nat), hq⟩) with
          ⟨h1, h2⟩ | ⟨h1, h2⟩
        · rw [h1, h2]
        · rw [h1, h2]
          exact Nat.add_comm _ _
      · have hii : (⟨passPartner u rev (i : Nat), hq⟩ : Fin l.length) = i :=
          Fin.ext heq.symm
        rw [if_neg (by omega)] at hfi
        rw [congrArg l.get hii] at hfi
        have hfii : f i = l.get i := by
          rw [hfi]
          rcases hex (l.get i) (l.get i) with ⟨_, h2⟩ | ⟨_, h2⟩
          · exact h2
          · exact h2
        rw [hii, hfii]
      · rw [if_neg (by omega)] at hfi
        rw [if_pos (by omega)] at hfσ
        rw [hfi, hfσ]
        rcases hex (l.get ⟨passPartner u rev (i : Nat), hq⟩) (l.get i) with
          ⟨h1, h2⟩ | ⟨h1, h2⟩
        · rw [h1, h2]
        · rw [h1, h2]
          exact Nat.add_comm _ _
    · have hσi : σ i = i := dif_neg hq
      have hfi : f i = l.get i := dif_neg hq
      rw [hσi, hfi]
  have hsum1 : (∑ i : Fin l.length, (if f (σ i) = a then 1 else 0)) =
      ∑ i : Fin l.length, (if f i = a then 1 else 0) :=
    hσ.bijective.sum_comp (fun j => if f j = a then 1 else 0)
  have hsum2 : (∑ i : Fin l.length, (if l.get (σ i) = a then 1 else 0)) =
      ∑ i : Fin l.length, (if l.get i = a then 1 else 0) :=
    hσ.bijective.sum_comp (fun j => if l.get j = a then 1 else 0)
  have h2 : (∑ i : Fin l.length,
        ((if f i = a then 1 else 0) + (if f (σ i) = a then 1 else 0))) =
      ∑ i : Fin l.length,
        ((if l.get i = a then 1 else 0) + (if l.get (σ i) = a then 1 else 0)) :=
    Finset.sum_congr rfl (fun i _ => hpair i)
  rw [Finset.sum_add_distrib, Finset.sum_add_distrib, hsum1, hsum2] at h2
  omega

/-! ## Lemmas: permutation and length preservation of the schedule -/

theorem cmp_exchange (key : Nat → Int) (a b : Nat) :
    (cmpLo key a b = a ∧ cmpHi key a b = b) ∨
    (cmpLo key a b = b ∧ cmpHi key a b = a) := by
  unfold cmpLo cmpHi
  by_cases h : key b < key a
  · right
    exact ⟨if_pos h, if_pos h⟩
  · left
    exact ⟨if_neg h, if_neg h⟩

theorem minmax_exchange {β : Type} [LinearOrder β] (a b : β) :
    (min a b = a ∧ max a b = b) ∨ (min a b = b ∧ max a b = a) :=
  (le_total a b).elim
    (fun h => Or.inl ⟨min_eq_left h, max_eq_right h⟩)
    (fun h => Or.inr ⟨min_eq_right h, max_eq_left h⟩)

theorem bitonicUnits_perm {α : Type} [DecidableEq α] (lo hi : α → α → α)
    (hex : ∀ a b, (lo a b = a ∧ hi a b = b) ∨ (lo a b = b ∧ hi a b = a)) :
    ∀ (b : Nat) (l : List α), (bitonicUnits lo hi b l).Perm l := by
  intro b
  induction b with
  | zero =>
    intro l
    exact List.Perm.refl l
  | succ b ih =>
    intro l
    exact (ih (bitonicPass lo hi (2 ^ (b + 1)) false l)).trans
      (bitonicPass_perm lo hi hex (2 ^ (b + 1)) (two_pow_pos (b + 1))
        (two_pow_succ_even b) false l)

theorem bitonicPhase_perm {α : Type} [DecidableEq α] (lo hi : α → α → α)
    (hex : ∀ a b, (lo a b = a ∧ hi a b = b) ∨ (lo a b = b ∧ hi a b = a)) :
    ∀ (b : Nat) (l : List α), (bitonicPhase lo hi b l).Perm l := by
  intro b
  cases b with
  | zero =>
    intro l
    exact List.Perm.refl l
  | succ b =>
    intro l
    exact (bitonicUnits_perm lo hi hex b _).trans
      (bitonicPass_perm lo hi hex (2 ^ (b + 1)) (two_pow_pos (b + 1))
        (two_pow_succ_even b) true l)

theorem bitonicSortSched_perm {α : Type} [DecidableEq α] (lo hi : α → α → α)
    (hex : ∀ a b, (lo a b = a ∧ hi a b = b) ∨ (lo a b = b ∧ hi a b = a)) :
    ∀ (b : Nat) (l : List α), (bitonicSortSched lo hi b l).Perm l := by
  intro b
  induction b with
  | zero =>
    intro l
    exact List.Perm.refl l
  | succ b ih =>
    intro l
    exact (bitonicPhase_perm lo hi hex (b + 1) _).trans (ih l)

theorem length_bitonicUnits {α : Type} (lo hi : α → α → α) :
    ∀ (b : Nat) (l : List α), (bitonicUnits lo hi b l).length = l.length := by
  intro b
  induction b with
  | zero =>
    intro l
    rfl
  | succ b ih =>
    intro l
    have h1 : bitonicUnits lo hi (b + 1) l =
        bitonicUnits lo hi b (bitonicPass lo hi (2 ^ (b + 1)) false l) := rfl
    rw [h1, ih, length_bitonicPass]

theorem length_bitonicPhase {α : Type} (lo hi : α → α → α) :
    ∀ (b : Nat) (l : List α), (bitonicPhase lo hi b l).length = l.length := by
  intro b
  cases b with
  | zero =>
    intro l
    rfl
  | succ b =>
    intro l
    have h1 : bitonicPhase lo hi (b + 1) l =
        bitonicUnits lo hi b (bitonicPass lo hi (2 ^ (b + 1)) true l) := rfl
    rw [h1, length_bitonicUnits, length_bitonicPass]

theorem length_bitonicSortSched {α : Type} (lo hi : α → α → α) :
    ∀ (b : Nat) (l : List α), (bitonicSortSched lo hi b l).length = l.length := by
  intro b
  induction b with
  | zero =>
    intro l
    rfl
  | succ b ih =>
    intro l
    have h1 : bitonicSortSched lo hi (b + 1) l =
        bitonicPhase lo hi (b + 1) (bitonicSortSched lo hi b l) := rfl
    rw [h1, length_bitonicPhase, ih]

theorem get_bitonicPass {α : Type} (lo hi : α → α → α) (u : Nat) (rev : Bool)
    (l : List α) (p : Nat) (hp : p < l.length)
    (hp2 : p < (bitonicPass lo hi u rev l).length) :
    (bitonicPass lo hi u rev l).get ⟨p, hp2⟩ =
      (if hq : passPartner u rev p < l.length then
        (if p < passPartner u rev p then
          lo (l.get ⟨p, hp⟩) (l.get ⟨passPartner u rev p, hq⟩)
         else hi (l.get ⟨passPartner u rev p, hq⟩) (l.get ⟨p, hp⟩))
       else l.get ⟨p, hp⟩) :=
  getElem_bitonicPass lo hi u rev l p hp

theorem get_append_left {α : Type} (l₁ l₂ : List α) (p : Nat)
    (hp : p < l₁.length) (hp2 : p < (l₁ ++ l₂).length) :
    (l₁ ++ l₂).get ⟨p, hp2⟩ = l₁.get ⟨p, hp⟩ := by
  rw [List.get_eq_getElem, List.get_eq_getElem]
  exact List.getElem_append_left hp

theorem get_append_right {α : Type} (l₁ l₂ : List α) (p : Nat)
    (hp : l₁.length ≤ p) (hp2 : p < (l₁ ++ l₂).length)
    (hp3 : p - l₁.length < l₂.length) :
    (l₁ ++ l₂).get ⟨p, hp2⟩ = l₂.get ⟨p - l₁.length, hp3⟩ := by
  rw [List.get_eq_getElem, List.get_eq_getElem]
  exact List.getElem_append_right hp

/-! ## Lemmas: a pass on a concatenation of unit-aligned blocks acts
blockwise (compare-exchange partners never cross an aligned boundary) -/

theorem get_append_add {α : Type} (l₁ l₂ : List α) (p : Nat)
    (hp3 : p < l₂.length) (hp2 : l₁.length + p < (l₁ ++ l₂).length) :
    (l₁ ++ l₂).get ⟨l₁.length + p, hp2⟩ = l₂.get ⟨p, hp3⟩ := by
  rw [List.get_eq_getElem, List.get_eq_getElem]
  rw [List.getElem_append_right (Nat.le_add_right _ _)]
  simp only [Nat.add_sub_cancel_left]

theorem bitonicPass_append {α : Type} (lo hi : α → α → α) (u : Nat)
    (hu : 0 < u) (rev : Bool) (l₁ l₂ : List α) (hdvd : u ∣ l₁.length) :
    bitonicPass lo hi u rev (l₁ ++ l₂) =
      bitonicPass lo hi u rev l₁ ++ bitonicPass lo hi u rev l₂ := by
  have hlen : (bitonicPass lo hi u rev (l₁ ++ l₂)).length =
      (bitonicPass lo hi u rev l₁ ++ bitonicPass lo hi u rev l₂).length := by
    rw [length_bitonicPass, List.length_append, List.length_append,
        length_bitonicPass, length_bitonicPass]
  apply List.ext_get hlen
  intro p h1 h2
  have hp : p < (l₁ ++ l₂).length := by
    rw [← length_bitonicPass lo hi u rev (l₁ ++ l₂)]
    exact h1
  rw [get_bitonicPass lo hi u rev (l₁ ++ l₂) p hp h1]
  by_cases hcase : p < l₁.length
  · have hq1 : passPartner u rev p < l₁.length :=
      passPartner_block_lt u p l₁.length hu hdvd hcase rev
    have hq : passPartner u rev p < (l₁ ++ l₂).length := by
      rw [List.length_append]
      omega
    rw [dif_pos hq]
    have hp1 : p < (bitonicPass lo hi u rev l₁).length := by
      rw [length_bitonicPass]
      exact hcase
    rw [get_append_left (bitonicPass lo hi u rev l₁)
        (bitonicPass lo hi u rev l₂) p hp1 h2]
    rw [get_bitonicPass lo hi u rev l₁ p hcase hp1]
    rw [dif_pos hq1]
    rw [get_append_left l₁ l₂ p hcase hp,
        get_append_left l₁ l₂ (passPartner u rev p) hq1 hq]
  · obtain ⟨p₀, rfl⟩ : ∃ p₀, p = l₁.length + p₀ :=
      ⟨p - l₁.length, by omega⟩
    have hp0 : p₀ < l₂.length := by
      rw [List.length_append] at hp
      omega
    have htrans : passPartner u rev (l₁.length + p₀) =
        l₁.length + passPartner u rev p₀ :=
      passPartner_translate u l₁.length p₀ hdvd rev
    have hp1 : (bitonicPass lo hi u rev l₁).length ≤ l₁.length + p₀ := by
      rw [length_bitonicPass]
      omega
    have hfr : (⟨l₁.length + p₀, h2⟩ :
        Fin (bitonicPass lo hi u rev l₁ ++ bitonicPass lo hi u rev l₂).length) =
        ⟨(bitonicPass lo hi u rev l₁).length + p₀, by
          rw [length_bitonicPass]
          exact h2⟩ := Fin.ext (by
        show l₁.length + p₀ = (bitonicPass lo hi u rev l₁).length + p₀
        rw [length_bitonicPass])
    have hp2r : p₀ < (bitonicPass lo hi u rev l₂).length := by
      rw [length_bitonicPass]
      exact hp0
    rw [congrArg (bitonicPass lo hi u rev l₁ ++
        bitonicPass lo hi u rev l₂).get hfr]
    rw [get_append_add (bitonicPass lo hi u rev l₁)
        (bitonicPass lo hi u rev l₂) p₀ hp2r _]
    rw [get_bitonicPass lo hi u rev l₂ p₀ hp0 hp2r]
    by_cases hq2 : passPartner u rev p₀ < l₂.length
    · have hq : passPartner u rev (l₁.length + p₀) < (l₁ ++ l₂).length := by
        rw [htrans, List.length_append]
        omega
      rw [dif_pos hq, dif_pos hq2]
      have hq3 : l₁.length + passPartner u rev p₀ < (l₁ ++ l₂).length := by
        rw [List.length_append]
        omega
      have hfq : (⟨passPartner u rev (l₁.length + p₀), hq⟩ :
          Fin (l₁ ++ l₂).length) =
          ⟨l₁.length + passPartner u rev p₀, hq3⟩ := Fin.ext htrans
      rw [congrArg (l₁ ++ l₂).get hfq]
      rw [htrans]
      rw [get_append_add l₁ l₂ p₀ hp0 hp,
          get_append_add l₁ l₂ (passPartner u rev p₀) hq2 hq3]
      by_cases hplt : p₀ < passPartner u rev p₀
      · rw [if_pos (by omega : l₁.length + p₀ <
            l₁.length + passPartner u rev p₀), if_pos hplt]
      · rw [if_neg (by omega : ¬ l₁.length + p₀ <
            l₁.length + passPartner u rev p₀), if_neg hplt]
    · have hqn : ¬ passPartner u rev (l₁.length + p₀) <
          (l₁ ++ l₂).length := by
        intro hcon
        rw [htrans, List.length_append] at hcon
        omega
      rw [dif_neg hqn, dif_neg hq2]
      rw [get_append_add l₁ l₂ p₀ hp0 hp]

theorem bitonicUnits_append {α : Type} (lo hi : α → α → α) :
    ∀ (b : Nat) (l₁ l₂ : List α), 2 ^ b ∣ l₁.length →
      bitonicUnits lo hi b (l₁ ++ l₂) =
        bitonicUnits lo hi b l₁ ++ bitonicUnits lo hi b l₂ := by
  intro b
  induction b with
  | zero =>
    intro l₁ l₂ _
    rfl
  | succ b ih =>
    intro l₁ l₂ hdvd
    have h1 : bitonicUnits lo hi (b + 1) (l₁ ++ l₂) =
        bitonicUnits lo hi b
          (bitonicPass lo hi (2 ^ (b + 1)) false (l₁ ++ l₂)) := rfl
    rw [h1, bitonicPass_append lo hi (2 ^ (b + 1)) (two_pow_pos (b + 1))
      false l₁ l₂ hdvd]
    rw [ih _ _ (by
      rw [length_bitonicPass]
      exact dvd_trans (pow_dvd_pow 2 (Nat.le_succ b)) hdvd)]
    rfl

theorem bitonicPhase_append {α : Type} (lo hi : α → α → α) :
    ∀ (b : Nat) (l₁ l₂ : List α), 2 ^ b ∣ l₁.length →
      bitonicPhase lo hi b (l₁ ++ l₂) =
        bitonicPhase lo hi b l₁ ++ bitonicPhase lo hi b l₂ := by
  intro b
  cases b with
  | zero =>
    intro l₁ l₂ _
    rfl
  | succ b =>
    intro l₁ l₂ hdvd
    have h1 : bitonicPhase lo hi (b + 1) (l₁ ++ l₂) =
        bitonicUnits lo hi b
          (bitonicPass lo hi (2 ^ (b + 1)) true (l₁ ++ l₂)) := rfl
    rw [h1, bitonicPass_append lo hi (2 ^ (b + 1)) (two_pow_pos (b + 1))
      true l₁ l₂ hdvd]
    rw [bitonicUnits_append lo hi b _ _ (by
      rw [length_bitonicPass]
      exact dvd_trans (pow_dvd_pow 2 (Nat.le_succ b)) hdvd)]
    rfl

/-! ## Lemmas: boolean order facts and the all-true padding used to reduce
a guarded pass on an arbitrary-length array to a full power-of-two pass -/

theorem bool_min_true (x : Bool) : min x true = x := by
  revert x
  decide

theorem bool_max_true (x : Bool) : max x true = true := by
  revert x
  decide

theorem bool_le_of_true (a b : Bool) (hab : a ≤ b) (ha : a = true) :
    b = true := by
  revert a b
  decide

theorem get_replicate_true (m i : Nat)
    (h : i < (List.replicate m true).length) :
    (List.replicate m true).get ⟨i, h⟩ = true := by
  rw [List.get_eq_getElem, List.getElem_replicate]

theorem bitonicPass_pad (u : Nat) (hu : 0 < u) (rev : Bool) (l : List Bool)
    (m : Nat) (hdvd : u ∣ l.length + m) :
    bitonicPass min max u rev (l ++ List.replicate m true) =
      bitonicPass min max u rev l ++ List.replicate m true := by
  have hlenrep : (l ++ List.replicate m true).length = l.length + m := by
    rw [List.length_append, List.length_replicate]
  have hdvd2 : u ∣ (l ++ List.replicate m true).length := by
    rw [hlenrep]
    exact hdvd
  have hlen : (bitonicPass min max u rev (l ++ List.replicate m true)).length =
      (bitonicPass min max u rev l ++ List.replicate m true).length := by
    rw [length_bitonicPass, List.length_append, List.length_append,
        length_bitonicPass]
  apply List.ext_get hlen
  intro p h1 h2
  have hp : p < (l ++ List.replicate m true).length := by
    rw [← length_bitonicPass min max u rev (l ++ List.replicate m true)]
    exact h1
  have hq : passPartner u rev p < (l ++ List.replicate m true).length :=
    passPartner_block_lt u p _ hu hdvd2 hp rev
  rw [get_bitonicPass min max u rev (l ++ List.replicate m true) p hp h1,
      dif_pos hq]
  by_cases hcase : p < l.length
  · have hp1 : p < (bitonicPass min max u rev l).length := by
      rw [length_bitonicPass]
      exact hcase
    rw [get_append_left (bitonicPass min max u rev l)
        (List.replicate m true) p hp1 h2]
    rw [get_bitonicPass min max u rev l p hcase hp1]
    by_cases hq2 : passPartner u rev p < l.length
    · rw [dif_pos hq2]
      rw [get_append_left l (List.replicate m true) p hcase hp,
          get_append_left l (List.replicate m true) _ hq2 hq]
    · rw [dif_neg hq2]
      have hlt : p < passPartner u rev p := by omega
      rw [if_pos hlt]
      have hq3 : passPartner u rev p - l.length <
          (List.replicate m true).length := by
        rw [List.length_replicate]
        rw [hlenrep] at hq
        omega
      rw [get_append_left l (List.replicate m true) p hcase hp,
          get_append_right l (List.replicate m true) _ (by omega) hq hq3,
          get_replicate_true m _ hq3, bool_min_true]
  · have hptrue : (l ++ List.replicate m true).get ⟨p, hp⟩ = true := by
      have hp3 : p - l.length < (List.replicate m true).length := by
        rw [List.length_replicate]
        rw [hlenrep] at hp
        omega
      rw [get_append_right l (List.replicate m true) p (by omega) hp hp3,
          get_replicate_true m _ hp3]
    have hrhs : (bitonicPass min max u rev l ++
        List.replicate m true).get ⟨p, h2⟩ = true := by
      have hp3 : p - (bitonicPass min max u rev l).length <
          (List.replicate m true).length := by
        rw [List.length_replicate, length_bitonicPass]
        rw [hlenrep] at hp
        omega
      rw [get_append_right (bitonicPass min max u rev l)
          (List.replicate m true) p (by rw [length_bitonicPass]; omega) h2 hp3,
          get_replicate_true m _ hp3]
    rw [hrhs]
    by_cases hlt : p < passPartner u rev p
    · rw [if_pos hlt]
      have hq3 : passPartner u rev p - l.length <
          (List.replicate m true).length := by
        rw [List.length_replicate]
        rw [hlenrep] at hq
        omega
      rw [hptrue,
          get_append_right l (List.replicate m true) _ (by omega) hq hq3,
          get_replicate_true m _ hq3]
      decide
    · rw [if_neg hlt, hptrue, bool_max_true]

theorem bitonicUnits_pad :
    ∀ (b : Nat) (l : List Bool) (m : Nat), 2 ^ b ∣ l.length + m →
      bitonicUnits min max b (l ++ List.replicate m true) =
        bitonicUnits min max b l ++ List.replicate m true := by
  intro b
  induction b with
  | zero =>
    intro l m _
    rfl
  | succ b ih =>
    intro l m hdvd
    have h1 : bitonicUnits min max (b + 1) (l ++ List.replicate m true) =
        bitonicUnits min max b (bitonicPass min max (2 ^ (b + 1)) false
          (l ++ List.replicate m true)) := rfl
    rw [h1, bitonicPass_pad (2 ^ (b + 1)) (two_pow_pos (b + 1)) false l m hdvd]
    rw [ih _ m (by
      rw [length_bitonicPass]
      exact dvd_trans (pow_dvd_pow 2 (Nat.le_succ b)) hdvd)]
    rfl

theorem bitonicPhase_pad :
    ∀ (b : Nat) (l : List Bool) (m : Nat), 2 ^ b ∣ l.length + m →
      bitonicPhase min max b (l ++ List.replicate m true) =
        bitonicPhase min max b l ++ List.replicate m true := by
  intro b
  cases b with
  | zero =>
    intro l m _
    rfl
  | succ b =>
    intro l m hdvd
    have h1 : bitonicPhase min max (b + 1) (l ++ List.replicate m true) =
        bitonicUnits min max b (bitonicPass min max (2 ^ (b + 1)) true
          (l ++ List.replicate m true)) := rfl
    rw [h1, bitonicPass_pad (2 ^ (b + 1)) (two_pow_pos (b + 1)) true l m hdvd]
    rw [bitonicUnits_pad b _ m (by
      rw [length_bitonicPass]
      exact dvd_trans (pow_dvd_pow 2 (Nat.le_succ b)) hdvd)]
    rfl

theorem bitonicSortSched_pad :
    ∀ (K : Nat) (l : List Bool) (m : Nat), 2 ^ K ∣ l.length + m →
      bitonicSortSched min max K (l ++ List.replicate m true) =
        bitonicSortSched min max K l ++ List.replicate m true := by
  intro K
  induction K with
  | zero =>
    intro l m _
    rfl
  | succ K ih =>
    intro l m hdvd
    have h1 : bitonicSortSched min max (K + 1) (l ++ List.replicate m true) =
        bitonicPhase min max (K + 1)
          (bitonicSortSched min max K (l ++ List.replicate m true)) := rfl
    rw [h1, ih l m (dvd_trans (pow_dvd_pow 2 (Nat.le_succ K)) hdvd)]
    rw [bitonicPhase_pad (K + 1) _ m (by
      rw [length_bitonicSortSched]
      exact hdvd)]
    rfl

/-! ## Lemmas: the chunk invariant -/

theorem Chunks_one {α : Type} (P : List α → Prop) (hP : ∀ a, P [a]) :
    ∀ l : List α, Chunks 1 P l := by
  intro l
  induction l with
  | nil => exact Chunks.nil
  | cons a t ih => exact Chunks.cons [a] t rfl (hP a) ih

theorem Chunks_pair {α : Type} (u : Nat) (hu : 0 < u) (P : List α → Prop) :
    ∀ (n : Nat) (l : List α), l.length = n → Chunks u P l → 2 * u ∣ n →
      Chunks (2 * u) (fun z => ∃ x y, z = x ++ y ∧ x.length = u ∧
        y.length = u ∧ P x ∧ P y) l := by
  intro n
  induction n using Nat.strong_induction_on with
  | _ n ih =>
    intro l hlen hch hdvd
    cases hch with
    | nil => exact Chunks.nil
    | cons x l₂ hx hPx hch₂ =>
      cases hch₂ with
      | nil =>
        exfalso
        rw [List.append_nil, hx] at hlen
        have h2 := Nat.le_of_dvd (by omega) hdvd
        omega
      | cons y l₃ hy hPy hch₃ =>
        rw [← List.append_assoc]
        have hlen₃ : l₃.length = n - 2 * u := by
          rw [List.length_append, List.length_append, hx, hy] at hlen
          omega
        have hge : 2 * u ≤ n := by
          rw [List.length_append, List.length_append, hx, hy] at hlen
          omega
        exact Chunks.cons (x ++ y) l₃
          (by rw [List.length_append, hx, hy]; omega)
          ⟨x, y, rfl, hx, hy, hPx, hPy⟩
          (ih (n - 2 * u) (by omega) l₃ hlen₃ hch₃
            (Nat.dvd_sub hge hdvd dvd_rfl))

theorem Chunks_single {α : Type} (u : Nat) (hu : 0 < u) (P : List α → Prop)
    (l : List α) (hch : Chunks u P l) (hlen : l.length = u) : P l := by
  cases hch with
  | nil =>
    rw [List.length_nil] at hlen
    omega
  | cons x l₂ hx hPx hch₂ =>
    cases hch₂ with
    | nil =>
      rw [List.append_nil]
      exact hPx
    | cons y l₃ hy hPy hch₃ =>
      exfalso
      rw [List.length_append, List.length_append, hx, hy] at hlen
      omega

/-! ## Lemmas: sorted boolean lists are threshold lists, and the 0-1
(threshold) principle for comparator networks -/

theorem bool_sorted_threshold (l : List Bool) (hs : List.Sorted (· ≤ ·) l) :
    ∃ c, c ≤ l.length ∧
      ∀ i (h : i < l.length), (l.get ⟨i, h⟩ = true ↔ c ≤ i) := by
  have hbr : ∀ i (h : i < l.length), l.getD i false = l.get ⟨i, h⟩ :=
    fun i h => by rw [List.getD_eq_getElem l false h, List.get_eq_getElem]
  have hex : ∃ i, l.length ≤ i ∨ l.getD i false = true :=
    ⟨l.length, Or.inl le_rfl⟩
  refine ⟨Nat.find hex, Nat.find_le (Or.inl le_rfl), ?_⟩
  intro i h
  constructor
  · intro hit
    exact Nat.find_le (Or.inr (by rw [hbr i h]; exact hit))
  · intro hci
    rcases Nat.find_spec hex with hlen | hval
    · omega
    · have hcl : Nat.find hex < l.length := by omega
      have hct : l.get ⟨Nat.find hex, hcl⟩ = true := by
        rw [← hbr _ hcl]
        exact hval
      rcases Nat.lt_or_ge (Nat.find hex) i with hlt | hge
      · have hpw := List.pairwise_iff_get.mp hs ⟨Nat.find hex, hcl⟩ ⟨i, h⟩ hlt
        exact bool_le_of_true _ _ hpw hct
      · have heq : Nat.find hex = i := by omega
        have : (⟨Nat.find hex, hcl⟩ : Fin l.length) = ⟨i, h⟩ := Fin.ext heq
        rw [← this]
        exact hct

theorem bool_sorted_append (A B : List Bool) (hA : List.Sorted (· ≤ ·) A)
    (hB : List.Sorted (· ≤ ·) B)
    (hglue : (∃ x ∈ A, x = true) → ∀ y ∈ B, y = true) :
    List.Sorted (· ≤ ·) (A ++ B) := by
  refine List.pairwise_append.mpr ⟨hA, hB, ?_⟩
  intro a ha b hb
  cases a with
  | false => exact Bool.false_le _
  | true =>
    have hbt : b = true := hglue ⟨true, ha, rfl⟩ b hb
    rw [hbt]

theorem sorted_of_mono_bool {β : Type} [LinearOrder β] (l : List β)
    (h : ∀ f : β → Bool, Monotone f → List.Sorted (· ≤ ·) (l.map f)) :
    List.Sorted (· ≤ ·) l := by
  apply List.pairwise_iff_get.mpr
  intro i j hij
  by_contra hcon
  have hmono : Monotone (fun x => decide (l.get i ≤ x)) := by
    intro a b hab
    by_cases hia : l.get i ≤ a
    · have hib : l.get i ≤ b := le_trans hia hab
      show decide (l.get i ≤ a) ≤ decide (l.get i ≤ b)
      rw [decide_eq_true hia, decide_eq_true hib]
    · show decide (l.get i ≤ a) ≤ decide (l.get i ≤ b)
      rw [decide_eq_false hia]
      exact Bool.false_le _
  have hs := h (fun x => decide (l.get i ≤ x)) hmono
  have hi2 : (i : Nat) < (l.map (fun x => decide (l.get i ≤ x))).length := by
    rw [List.length_map]
    exact i.2
  have hj2 : (j : Nat) < (l.map (fun x => decide (l.get i ≤ x))).length := by
    rw [List.length_map]
    exact j.2
  have hpw := List.pairwise_iff_get.mp hs ⟨(i : Nat), hi2⟩ ⟨(j : Nat), hj2⟩ hij
  have hgi : (l.map (fun x => decide (l.get i ≤ x))).get ⟨(i : Nat), hi2⟩ =
      decide (l.get i ≤ l.get i) := by
    rw [List.get_eq_getElem, List.getElem_map]
    rfl
  have hgj : (l.map (fun x => decide (l.get i ≤ x))).get ⟨(j : Nat), hj2⟩ =
      decide (l.get i ≤ l.get j) := by
    rw [List.get_eq_getElem, List.getElem_map]
    rfl
  rw [hgi, hgj, decide_eq_true (le_refl (l.get i)), decide_eq_false hcon]
    at hpw
  exact absurd hpw (by decide)

theorem map_bitonicPass {α β : Type} (lo hi : α → α → α) (lo2 hi2 : β → β → β)
    (f : α → β) (hlo : ∀ a b, f (lo a b) = lo2 (f a) (f b))
    (hhi : ∀ a b, f (hi a b) = hi2 (f a) (f b)) (u : Nat) (rev : Bool)
    (l : List α) :
    (bitonicPass lo hi u rev l).map f = bitonicPass lo2 hi2 u rev (l.map f) := by
  have hlen : ((bitonicPass lo hi u rev l).map f).length =
      (bitonicPass lo2 hi2 u rev (l.map f)).length := by
    rw [List.length_map, length_bitonicPass, length_bitonicPass,
        List.length_map]
  apply List.ext_get hlen
  intro p h1 h2
  have hp : p < l.length := by
    rw [List.length_map, length_bitonicPass] at h1
    exact h1
  have hpm : p < (l.map f).length := by
    rw [List.length_map]
    exact hp
  have hp1 : p < (bitonicPass lo hi u rev l).length := by
    rw [length_bitonicPass]
    exact hp
  have hLHS : ((bitonicPass lo hi u rev l).map f).get ⟨p, h1⟩ =
      f ((bitonicPass lo hi u rev l).get ⟨p, hp1⟩) := by
    rw [List.get_eq_getElem, List.getElem_map, List.get_eq_getElem]
  rw [hLHS, get_bitonicPass lo hi u rev l p hp hp1,
      get_bitonicPass lo2 hi2 u rev (l.map f) p hpm h2]
  have hg1 : (l.map f).get ⟨p, hpm⟩ = f (l.get ⟨p, hp⟩) := by
    rw [List.get_eq_getElem, List.getElem_map, List.get_eq_getElem]
  by_cases hq : passPartner u rev p < l.length
  · have hqm : passPartner u rev p < (l.map f).length := by
      rw [List.length_map]
      exact hq
    rw [dif_pos hq, dif_pos hqm]
    have hg2 : (l.map f).get ⟨passPartner u rev p, hqm⟩ =
        f (l.get ⟨passPartner u rev p, hq⟩) := by
      rw [List.get_eq_getElem, List.getElem_map, List.get_eq_getElem]
    rw [hg1, hg2]
    by_cases hlt : p < passPartner u rev p
    · rw [if_pos hlt, if_pos hlt, hlo]
    · rw [if_neg hlt, if_neg hlt, hhi]
  · have hqm : ¬ passPartner u rev p < (l.map f).length := by
      rw [List.length_map]
      exact hq
    rw [dif_neg hq, dif_neg hqm, hg1]

theorem map_bitonicUnits {α β : Type} (lo hi : α → α → α) (lo2 hi2 : β → β → β)
    (f : α → β) (hlo : ∀ a b, f (lo a b) = lo2 (f a) (f b))
    (hhi : ∀ a b, f (hi a b) = hi2 (f a) (f b)) :
    ∀ (b : Nat) (l : List α),
      (bitonicUnits lo hi b l).map f = bitonicUnits lo2 hi2 b (l.map f) := by
  intro b
  induction b with
  | zero =>
    intro l
    rfl
  | succ b ih =>
    intro l
    have h1 : bitonicUnits lo hi (b + 1) l =
        bitonicUnits lo hi b (bitonicPass lo hi (2 ^ (b + 1)) false l) := rfl
    rw [h1, ih, map_bitonicPass lo hi lo2 hi2 f hlo hhi]
    rfl

theorem map_bitonicPhase {α β : Type} (lo hi : α → α → α) (lo2 hi2 : β → β → β)
    (f : α → β) (hlo : ∀ a b, f (lo a b) = lo2 (f a) (f b))
    (hhi : ∀ a b, f (hi a b) = hi2 (f a) (f b)) :
    ∀ (b : Nat) (l : List α),
      (bitonicPhase lo hi b l).map f = bitonicPhase lo2 hi2 b (l.map f) := by
  intro b
  cases b with
  | zero =>
    intro l
    rfl
  | succ b =>
    intro l
    have h1 : bitonicPhase lo hi (b + 1) l =
        bitonicUnits lo hi b (bitonicPass lo hi (2 ^ (b + 1)) true l) := rfl
    rw [h1, map_bitonicUnits lo hi lo2 hi2 f hlo hhi,
        map_bitonicPass lo hi lo2 hi2 f hlo hhi]
    rfl

theorem map_bitonicSortSched {α β : Type} (lo hi : α → α → α)
    (lo2 hi2 : β → β → β) (f : α → β)
    (hlo : ∀ a b, f (lo a b) = lo2 (f a) (f b))
    (hhi : ∀ a b, f (hi a b) = hi2 (f a) (f b)) :
    ∀ (b : Nat) (l : List α),
      (bitonicSortSched lo hi b l).map f =
        bitonicSortSched lo2 hi2 b (l.map f) := by
  intro b
  induction b with
  | zero =>
    intro l
    rfl
  | succ b ih =>
    intro l
    have h1 : bitonicSortSched lo hi (b + 1) l =
        bitonicPhase lo hi (b + 1) (bitonicSortSched lo hi b l) := rfl
    rw [h1, map_bitonicPhase lo hi lo2 hi2 f hlo hhi, ih]
    rfl

/-! ## Lemmas: pointwise values of one straight or mirror pass on a full
power-of-two block -/

theorem bool_min_eq_true (a b : Bool) :
    min a b = true ↔ a = true ∧ b = true := by
  revert a b
  decide

theorem bool_max_eq_true (a b : Bool) :
    max a b = true ↔ a = true ∨ b = true := by
  revert a b
  decide

theorem get_take {α : Type} (l : List α) (n p : Nat)
    (h : p < (l.take n).length) (h2 : p < l.length) :
    (l.take n).get ⟨p, h⟩ = l.get ⟨p, h2⟩ := by
  rw [List.get_eq_getElem, List.get_eq_getElem, List.getElem_take]

theorem get_drop {α : Type} (l : List α) (n p : Nat)
    (h : p < (l.drop n).length) (h2 : n + p < l.length) :
    (l.drop n).get ⟨p, h⟩ = l.get ⟨n + p, h2⟩ := by
  rw [List.get_eq_getElem, List.get_eq_getElem, List.getElem_drop]

theorem get_bitonicPass_straight_lo {α : Type} (lo hi : α → α → α) (b : Nat)
    (w : List α) (hw : w.length = 2 ^ (b + 1)) (p : Nat) (hp : p < 2 ^ b)
    (h1 : p < (bitonicPass lo hi (2 ^ (b + 1)) false w).length)
    (h2 : p < w.length) (h3 : p + 2 ^ b < w.length) :
    (bitonicPass lo hi (2 ^ (b + 1)) false w).get ⟨p, h1⟩ =
      lo (w.get ⟨p, h2⟩) (w.get ⟨p + 2 ^ b, h3⟩) := by
  have hpos := two_pow_pos b
  have h2u : 2 ^ (b + 1) = 2 * 2 ^ b := by
    rw [Nat.pow_succ]
    omega
  have hL2 : 2 ^ (b + 1) / 2 = 2 ^ b := by omega
  have hpart : passPartner (2 ^ (b + 1)) false p = p + 2 ^ b := by
    rw [passPartner_straight_lo (2 ^ (b + 1)) p (by omega) (by omega)]
    omega
  rw [get_bitonicPass lo hi (2 ^ (b + 1)) false w p h2 h1, hpart, dif_pos h3,
      if_pos (by omega)]

theorem get_bitonicPass_straight_hi {α : Type} (lo hi : α → α → α) (b : Nat)
    (w : List α) (hw : w.length = 2 ^ (b + 1)) (p : Nat) (hp : 2 ^ b ≤ p)
    (hp2 : p < 2 ^ (b + 1))
    (h1 : p < (bitonicPass lo hi (2 ^ (b + 1)) false w).length)
    (h2 : p < w.length) (h3 : p - 2 ^ b < w.length) :
    (bitonicPass lo hi (2 ^ (b + 1)) false w).get ⟨p, h1⟩ =
      hi (w.get ⟨p - 2 ^ b, h3⟩) (w.get ⟨p, h2⟩) := by
  have hpos := two_pow_pos b
  have h2u : 2 ^ (b + 1) = 2 * 2 ^ b := by
    rw [Nat.pow_succ]
    omega
  have hL2 : 2 ^ (b + 1) / 2 = 2 ^ b := by omega
  have hpart : passPartner (2 ^ (b + 1)) false p = p - 2 ^ b := by
    rw [passPartner_straight_hi (2 ^ (b + 1)) p (by omega) (by omega)]
    omega
  rw [get_bitonicPass lo hi (2 ^ (b + 1)) false w p h2 h1, hpart, dif_pos h3,
      if_neg (by omega)]

theorem get_bitonicPass_mirror_lo {α : Type} (lo hi : α → α → α) (L : Nat)
    (w : List α) (hw : w.length = L) (p : Nat) (hp : p < L)
    (hlt : p < L - 1 - p)
    (h1 : p < (bitonicPass lo hi L true w).length)
    (h2 : p < w.length) (h3 : L - 1 - p < w.length) :
    (bitonicPass lo hi L true w).get ⟨p, h1⟩ =
      lo (w.get ⟨p, h2⟩) (w.get ⟨L - 1 - p, h3⟩) := by
  have hpart : passPartner L true p = L - 1 - p :=
    passPartner_mirror_of_lt L p hp
  rw [get_bitonicPass lo hi L true w p h2 h1, hpart, dif_pos h3,
      if_pos hlt]

theorem get_bitonicPass_mirror_hi {α : Type} (lo hi : α → α → α) (L : Nat)
    (w : List α) (hw : w.length = L) (p : Nat) (hp : p < L)
    (hge : ¬ p < L - 1 - p)
    (h1 : p < (bitonicPass lo hi L true w).length)
    (h2 : p < w.length) (h3 : L - 1 - p < w.length) :
    (bitonicPass lo hi L true w).get ⟨p, h1⟩ =
      hi (w.get ⟨L - 1 - p, h3⟩) (w.get ⟨p, h2⟩) := by
  have hpart : passPartner L true p = L - 1 - p :=
    passPartner_mirror_of_lt L p hp
  rw [get_bitonicPass lo hi L true w p h2 h1, hpart, dif_pos h3,
      if_neg hge]

theorem units_halves_sorted (b : Nat) (l : List Bool)
    (hlen : l.length = 2 ^ (b + 1))
    (hcA : IsCyc (l.take (2 ^ b))) (hcB : IsCyc (l.drop (2 ^ b)))
    (hglue0 : (∃ x ∈ l.take (2 ^ b), x = true) →
      ∀ y ∈ l.drop (2 ^ b), y = true)
    (hsorted : ∀ w : List Bool, w.length = 2 ^ b → IsCyc w →
      List.Sorted (· ≤ ·) (bitonicUnits min max b w)) :
    List.Sorted (· ≤ ·) (bitonicUnits min max b l) := by
  have hpos := two_pow_pos b
  have h2u : 2 ^ (b + 1) = 2 * 2 ^ b := by
    rw [Nat.pow_succ]
    omega
  have hlt : (l.take (2 ^ b)).length = 2 ^ b := by
    rw [List.length_take]
    omega
  have hld : (l.drop (2 ^ b)).length = 2 ^ b := by
    rw [List.length_drop]
    omega
  have hsplit : bitonicUnits min max b l =
      bitonicUnits min max b (l.take (2 ^ b)) ++
        bitonicUnits min max b (l.drop (2 ^ b)) := by
    conv_lhs => rw [← List.take_append_drop (2 ^ b) l]
    exact bitonicUnits_append min max b _ _ (by rw [hlt])
  rw [hsplit]
  have hpermA : (bitonicUnits min max b (l.take (2 ^ b))).Perm
      (l.take (2 ^ b)) :=
    bitonicUnits_perm min max (fun a c => minmax_exchange a c) b _
  have hpermB : (bitonicUnits min max b (l.drop (2 ^ b))).Perm
      (l.drop (2 ^ b)) :=
    bitonicUnits_perm min max (fun a c => minmax_exchange a c) b _
  apply bool_sorted_append _ _ (hsorted _ hlt hcA) (hsorted _ hld hcB)
  intro hex y hy
  obtain ⟨x, hx, hxt⟩ := hex
  exact hglue0 ⟨x, hpermA.mem_iff.mp hx, hxt⟩ y (hpermB.mem_iff.mp hy)

theorem get_bitonicPass_straight_hi2 {α : Type} (lo hi : α → α → α) (b : Nat)
    (w : List α) (hw : w.length = 2 ^ (b + 1)) (t : Nat) (ht : t < 2 ^ b)
    (h1 : 2 ^ b + t < (bitonicPass lo hi (2 ^ (b + 1)) false w).length)
    (h2 : 2 ^ b + t < w.length) (h3 : t < w.length) :
    (bitonicPass lo hi (2 ^ (b + 1)) false w).get ⟨2 ^ b + t, h1⟩ =
      hi (w.get ⟨t, h3⟩) (w.get ⟨2 ^ b + t, h2⟩) := by
  have hpos := two_pow_pos b
  have h2u : 2 ^ (b + 1) = 2 * 2 ^ b := by
    rw [Nat.pow_succ]
    omega
  have hL2 : 2 ^ (b + 1) / 2 = 2 ^ b := by omega
  have hpart : passPartner (2 ^ (b + 1)) false (2 ^ b + t) = t := by
    rw [passPartner_straight_hi (2 ^ (b + 1)) (2 ^ b + t) (by omega)
      (by omega)]
    omega
  rw [get_bitonicPass lo hi (2 ^ (b + 1)) false w (2 ^ b + t) h2 h1, hpart,
      dif_pos h3, if_neg (by omega)]

theorem units_sorted_of_cyc :
    ∀ (b : Nat) (w : List Bool), w.length = 2 ^ b → IsCyc w →
      List.Sorted (· ≤ ·) (bitonicUnits min max b w) := by
  intro b
  induction b with
  | zero =>
    intro w hw _
    obtain ⟨a, rfl⟩ := List.length_eq_one.mp (by rw [hw]; rfl)
    exact List.sorted_singleton a
  | succ b ih =>
    intro w hw hcyc
    have hpos := two_pow_pos b
    have h2u : 2 ^ (b + 1) = 2 * 2 ^ b := by
      rw [Nat.pow_succ]
      omega
    obtain ⟨sx, qx, hsx, hqx, hval⟩ := hcyc
    rw [hw] at hsx hqx
    have hlen' : (bitonicPass min max (2 ^ (b + 1)) false w).length =
        2 ^ (b + 1) := by
      rw [length_bitonicPass, hw]
    have hlentake : ((bitonicPass min max (2 ^ (b + 1)) false w).take
        (2 ^ b)).length = 2 ^ b := by
      rw [List.length_take, hlen']
      omega
    have hlendrop : ((bitonicPass min max (2 ^ (b + 1)) false w).drop
        (2 ^ b)).length = 2 ^ b := by
      rw [List.length_drop, hlen']
      omega
    have hvlow : ∀ p (hp : p < ((bitonicPass min max (2 ^ (b + 1)) false
          w).take (2 ^ b)).length),
        (((bitonicPass min max (2 ^ (b + 1)) false w).take (2 ^ b)).get
            ⟨p, hp⟩ = true ↔
          (((sx ≤ p ∧ p < sx + qx) ∨ (p + w.length < sx + qx)) ∧
           ((sx ≤ p + 2 ^ b ∧ p + 2 ^ b < sx + qx) ∨
            (p + 2 ^ b + w.length < sx + qx)))) := by
      intro p hp
      have hp' : p < 2 ^ b := by
        rw [hlentake] at hp
        exact hp
      have h2 : p < w.length := by
        rw [hw]
        omega
      have h3 : p + 2 ^ b < w.length := by
        rw [hw]
        omega
      have h1 : p < (bitonicPass min max (2 ^ (b + 1)) false w).length := by
        rw [hlen']
        omega
      rw [get_take _ _ _ hp h1,
          get_bitonicPass_straight_lo min max b w hw p hp' h1 h2 h3,
          bool_min_eq_true, hval p h2, hval (p + 2 ^ b) h3]
    have hvhigh : ∀ t (ht : t < ((bitonicPass min max (2 ^ (b + 1)) false
          w).drop (2 ^ b)).length),
        (((bitonicPass min max (2 ^ (b + 1)) false w).drop (2 ^ b)).get
            ⟨t, ht⟩ = true ↔
          (((sx ≤ t ∧ t < sx + qx) ∨ (t + w.length < sx + qx)) ∨
           ((sx ≤ 2 ^ b + t ∧ 2 ^ b + t < sx + qx) ∨
            (2 ^ b + t + w.length < sx + qx)))) := by
      intro t ht
      have ht' : t < 2 ^ b := by
        rw [hlendrop] at ht
        exact ht
      have h2 : 2 ^ b + t < w.length := by
        rw [hw]
        omega
      have h3 : t < w.length := by
        rw [hw]
        omega
      have h1 : 2 ^ b + t < (bitonicPass min max (2 ^ (b + 1)) false
          w).length := by
        rw [hlen']
        omega
      rw [get_drop _ _ _ ht h1,
          get_bitonicPass_straight_hi2 min max b w hw t ht' h1 h2 h3,
          bool_max_eq_true, hval (2 ^ b + t) h2, hval t h3]
    have hdef : bitonicUnits min max (b + 1) w =
        bitonicUnits min max b
          (bitonicPass min max (2 ^ (b + 1)) false w) := rfl
    rw [hdef]
    refine units_halves_sorted b _ hlen' ?_ ?_ ?_ ih
    · refine ⟨(if sx < 2 ^ b then sx else sx - 2 ^ b), qx - 2 ^ b, ?_, ?_, ?_⟩
      · rw [hlentake]
        split_ifs <;> omega
      · rw [hlentake]
        omega
      · intro p hp
        rw [hvlow p hp, hlentake]
        have hwl : w.length = 2 ^ (b + 1) := hw
        split_ifs <;> omega
    · refine ⟨(if sx < 2 ^ b then sx else sx - 2 ^ b), min qx (2 ^ b),
        ?_, ?_, ?_⟩
      · rw [hlendrop]
        split_ifs <;> omega
      · rw [hlendrop]
        omega
      · intro t ht
        rw [hvhigh t ht, hlendrop]
        have hwl : w.length = 2 ^ (b + 1) := hw
        split_ifs <;> omega
    · intro hex y hy
      obtain ⟨x, hx, hxt⟩ := hex
      obtain ⟨⟨p, hp⟩, hgx⟩ := List.mem_iff_get.mp hx
      obtain ⟨⟨t, ht⟩, hgy⟩ := List.mem_iff_get.mp hy
      rw [← hgy]
      have hxtrue : ((bitonicPass min max (2 ^ (b + 1)) false w).take
          (2 ^ b)).get ⟨p, hp⟩ = true := by
        rw [hgx]
        exact hxt
      rw [hvlow p hp] at hxtrue
      rw [hvhigh t ht]
      have hwl : w.length = 2 ^ (b + 1) := hw
      have hp' : p < 2 ^ b := by
        rw [hlentake] at hp
        exact hp
      have ht' : t < 2 ^ b := by
        rw [hlendrop] at ht
        exact ht
      omega

theorem get_bitonicPass_mirror_lo2 {α : Type} (lo hi : α → α → α) (b : Nat)
    (z : List α) (hz : z.length = 2 ^ (b + 1)) (p : Nat) (hp : p < 2 ^ b)
    (h1 : p < (bitonicPass lo hi (2 ^ (b + 1)) true z).length)
    (h2 : p < z.length) (h3 : 2 ^ b + (2 ^ b - 1 - p) < z.length) :
    (bitonicPass lo hi (2 ^ (b + 1)) true z).get ⟨p, h1⟩ =
      lo (z.get ⟨p, h2⟩) (z.get ⟨2 ^ b + (2 ^ b - 1 - p), h3⟩) := by
  have hpos := two_pow_pos b
  have h2u : 2 ^ (b + 1) = 2 * 2 ^ b := by
    rw [Nat.pow_succ]
    omega
  have hpart : passPartner (2 ^ (b + 1)) true p =
      2 ^ b + (2 ^ b - 1 - p) := by
    rw [passPartner_mirror_of_lt (2 ^ (b + 1)) p (by omega)]
    omega
  rw [get_bitonicPass lo hi (2 ^ (b + 1)) true z p h2 h1, hpart, dif_pos h3,
      if_pos (by omega)]

theorem get_bitonicPass_mirror_hi2 {α : Type} (lo hi : α → α → α) (b : Nat)
    (z : List α) (hz : z.length = 2 ^ (b + 1)) (t : Nat) (ht : t < 2 ^ b)
    (h1 : 2 ^ b + t < (bitonicPass lo hi (2 ^ (b + 1)) true z).length)
    (h2 : 2 ^ b + t < z.length) (h3 : 2 ^ b - 1 - t < z.length) :
    (bitonicPass lo hi (2 ^ (b + 1)) true z).get ⟨2 ^ b + t, h1⟩ =
      hi (z.get ⟨2 ^ b - 1 - t, h3⟩) (z.get ⟨2 ^ b + t, h2⟩) := by
  have hpos := two_pow_pos b
  have h2u : 2 ^ (b + 1) = 2 * 2 ^ b := by
    rw [Nat.pow_succ]
    omega
  have hpart : passPartner (2 ^ (b + 1)) true (2 ^ b + t) =
      2 ^ b - 1 - t := by
    rw [passPartner_mirror_of_lt (2 ^ (b + 1)) (2 ^ b + t) (by omega)]
    omega
  rw [get_bitonicPass lo hi (2 ^ (b + 1)) true z (2 ^ b + t) h2 h1, hpart,
      dif_pos h3, if_neg (by omega)]

theorem phase_block_sorted (b : Nat) (x y : List Bool)
    (hx : x.length = 2 ^ b) (hy : y.length = 2 ^ b)
    (hsx : List.Sorted (· ≤ ·) x) (hsy : List.Sorted (· ≤ ·) y) :
    List.Sorted (· ≤ ·) (bitonicPhase min max (b + 1) (x ++ y)) := by
  have hpos := two_pow_pos b
  have h2u : 2 ^ (b + 1) = 2 * 2 ^ b := by
    rw [Nat.pow_succ]
    omega
  have hz : (x ++ y).length = 2 ^ (b + 1) := by
    rw [List.length_append, hx, hy]
    omega
  obtain ⟨c₁, hc₁, hvx⟩ := bool_sorted_threshold x hsx
  obtain ⟨c₂, hc₂, hvy⟩ := bool_sorted_threshold y hsy
  rw [hx] at hc₁
  rw [hy] at hc₂
  have hlen' : (bitonicPass min max (2 ^ (b + 1)) true (x ++ y)).length =
      2 ^ (b + 1) := by
    rw [length_bitonicPass, hz]
  have hlentake : ((bitonicPass min max (2 ^ (b + 1)) true (x ++ y)).take
      (2 ^ b)).length = 2 ^ b := by
    rw [List.length_take, hlen']
    omega
  have hlendrop : ((bitonicPass min max (2 ^ (b + 1)) true (x ++ y)).drop
      (2 ^ b)).length = 2 ^ b := by
    rw [List.length_drop, hlen']
    omega
  have hvlow : ∀ p (hp : p < ((bitonicPass min max (2 ^ (b + 1)) true
        (x ++ y)).take (2 ^ b)).length),
      (((bitonicPass min max (2 ^ (b + 1)) true (x ++ y)).take (2 ^ b)).get
          ⟨p, hp⟩ = true ↔ (c₁ ≤ p ∧ c₂ ≤ 2 ^ b - 1 - p)) := by
    intro p hp
    have hp' : p < 2 ^ b := by
      rw [hlentake] at hp
      exact hp
    have h2 : p < (x ++ y).length := by
      rw [hz]
      omega
    have h3 : 2 ^ b + (2 ^ b - 1 - p) < (x ++ y).length := by
      rw [hz]
      omega
    have h1 : p < (bitonicPass min max (2 ^ (b + 1)) true (x ++ y)).length := by
      rw [hlen']
      omega
    rw [get_take _ _ _ hp h1,
        get_bitonicPass_mirror_lo2 min max b (x ++ y) hz p hp' h1 h2 h3,
        bool_min_eq_true]
    have hgx2 : p < x.length := by
      rw [hx]
      omega
    have h3y : 2 ^ b - 1 - p < y.length := by
      rw [hy]
      omega
    have hfin : (⟨2 ^ b + (2 ^ b - 1 - p), h3⟩ : Fin (x ++ y).length) =
        ⟨x.length + (2 ^ b - 1 - p), by rw [hx]; exact h3⟩ :=
      Fin.ext (by
        show 2 ^ b + (2 ^ b - 1 - p) = x.length + (2 ^ b - 1 - p)
        rw [hx])
    rw [get_append_left x y p hgx2 h2, congrArg (x ++ y).get hfin,
        get_append_add x y (2 ^ b - 1 - p) h3y _,
        hvx p hgx2, hvy (2 ^ b - 1 - p) h3y]
  have hvhigh : ∀ t (ht : t < ((bitonicPass min max (2 ^ (b + 1)) true
        (x ++ y)).drop (2 ^ b)).length),
      (((bitonicPass min max (2 ^ (b + 1)) true (x ++ y)).drop (2 ^ b)).get
          ⟨t, ht⟩ = true ↔ (c₁ ≤ 2 ^ b - 1 - t ∨ c₂ ≤ t)) := by
    intro t ht
    have ht' : t < 2 ^ b := by
      rw [hlendrop] at ht
      exact ht
    have h2 : 2 ^ b + t < (x ++ y).length := by
      rw [hz]
      omega
    have h3 : 2 ^ b - 1 - t < (x ++ y).length := by
      rw [hz]
      omega
    have h1 : 2 ^ b + t <
        (bitonicPass min max (2 ^ (b + 1)) true (x ++ y)).length := by
      rw [hlen']
      omega
    rw [get_drop _ _ _ ht h1,
        get_bitonicPass_mirror_hi2 min max b (x ++ y) hz t ht' h1 h2 h3,
        bool_max_eq_true]
    have hgx2 : 2 ^ b - 1 - t < x.length := by
      rw [hx]
      omega
    have h2y : t < y.length := by
      rw [hy]
      omega
    have hfin : (⟨2 ^ b + t, h2⟩ : Fin (x ++ y).length) =
        ⟨x.length + t, by rw [hx]; exact h2⟩ := Fin.ext (by
      show 2 ^ b + t = x.length + t
      rw [hx])
    rw [get_append_left x y (2 ^ b - 1 - t) hgx2 h3,
        congrArg (x ++ y).get hfin, get_append_add x y t h2y _,
        hvx (2 ^ b - 1 - t) hgx2, hvy t h2y]
  have hdef : bitonicPhase min max (b + 1) (x ++ y) =
      bitonicUnits min max b
        (bitonicPass min max (2 ^ (b + 1)) true (x ++ y)) := rfl
  rw [hdef]
  refine units_halves_sorted b _ hlen' ?_ ?_ ?_ (units_sorted_of_cyc b)
  · refine ⟨c₁, 2 ^ b - c₂ - c₁, ?_, ?_, ?_⟩
    · rw [hlentake]
      omega
    · rw [hlentake]
      omega
    · intro p hp
      have hp' : p < 2 ^ b := by
        rw [hlentake] at hp
        exact hp
      rw [hvlow p hp, hlentake]
      omega
  · refine ⟨c₂, min (2 * 2 ^ b - c₂ - c₁) (2 ^ b), ?_, ?_, ?_⟩
    · rw [hlendrop]
      omega
    · rw [hlendrop]
      omega
    · intro t ht
      have ht' : t < 2 ^ b := by
        rw [hlendrop] at ht
        exact ht
      rw [hvhigh t ht, hlendrop]
      omega
  · intro hex y2 hy2
    obtain ⟨x2, hx2, hx2t⟩ := hex
    obtain ⟨⟨p, hp⟩, hgx⟩ := List.mem_iff_get.mp hx2
    obtain ⟨⟨t, ht⟩, hgy⟩ := List.mem_iff_get.mp hy2
    rw [← hgy]
    have hxtrue : ((bitonicPass min max (2 ^ (b + 1)) true (x ++ y)).take
        (2 ^ b)).get ⟨p, hp⟩ = true := by
      rw [hgx]
      exact hx2t
    rw [hvlow p hp] at hxtrue
    rw [hvhigh t ht]
    have hp' : p < 2 ^ b := by
      rw [hlentake] at hp
      exact hp
    have ht' : t < 2 ^ b := by
      rw [hlendrop] at ht
      exact ht
    omega

theorem phase_step (b : Nat) (l : List Bool)
    (hch : Chunks (2 ^ b) (List.Sorted (· ≤ ·)) l)
    (hdvd : 2 ^ (b + 1) ∣ l.length) :
    Chunks (2 ^ (b + 1)) (List.Sorted (· ≤ ·))
      (bitonicPhase min max (b + 1) l) := by
  have hpos := two_pow_pos b
  have h2u : 2 ^ (b + 1) = 2 * 2 ^ b := by
    rw [Nat.pow_succ]
    omega
  have hpair := Chunks_pair (2 ^ b) hpos _ l.length l rfl hch
    (by rw [← h2u]; exact hdvd)
  clear hch hdvd
  induction hpair with
  | nil =>
    have hnil : bitonicPhase min max (b + 1) ([] : List Bool) = [] := by
      apply List.length_eq_zero.mp
      rw [length_bitonicPhase]
      rfl
    rw [hnil]
    exact Chunks.nil
  | cons z rest hzlen hQ hrest ih =>
    obtain ⟨x, y, rfl, hxl, hyl, hsx, hsy⟩ := hQ
    rw [bitonicPhase_append min max (b + 1) _ rest (by
      rw [List.length_append, hxl, hyl,
          show 2 ^ b + 2 ^ b = 2 ^ (b + 1) from by omega])]
    exact Chunks.cons _ _ (by
        rw [length_bitonicPhase, List.length_append, hxl, hyl]
        omega)
      (phase_block_sorted b x y hxl hyl hsx hsy) ih

theorem sched_chunks (K : Nat) (l : List Bool) (hlen : l.length = 2 ^ K) :
    ∀ b, b ≤ K →
      Chunks (2 ^ b) (List.Sorted (· ≤ ·)) (bitonicSortSched min max b l) := by
  intro b
  induction b with
  | zero =>
    intro _
    exact Chunks_one _ (fun a => List.sorted_singleton a) l
  | succ b ih =>
    intro hb
    have hchb := ih (by omega)
    have hdvd : 2 ^ (b + 1) ∣ (bitonicSortSched min max b l).length := by
      rw [length_bitonicSortSched, hlen]
      exact pow_dvd_pow 2 hb
    have hdef : bitonicSortSched min max (b + 1) l =
        bitonicPhase min max (b + 1) (bitonicSortSched min max b l) := rfl
    rw [hdef]
    exact phase_step b _ hchb hdvd

theorem sched_sorted_bool (K : Nat) (l : List Bool)
    (hlen : l.length = 2 ^ K) :
    List.Sorted (· ≤ ·) (bitonicSortSched min max K l) :=
  Chunks_single (2 ^ K) (two_pow_pos K) _ _
    (sched_chunks K l hlen K le_rfl)
    (by rw [length_bitonicSortSched, hlen])

theorem sched_sorted_bool_le (K : Nat) (l : List Bool)
    (hlen : l.length ≤ 2 ^ K) :
    List.Sorted (· ≤ ·) (bitonicSortSched min max K l) := by
  have hdvd : 2 ^ K ∣ l.length + (2 ^ K - l.length) := by
    rw [show l.length + (2 ^ K - l.length) = 2 ^ K from by omega]
  have hpad := bitonicSortSched_pad K l (2 ^ K - l.length) hdvd
  have hfull : (l ++ List.replicate (2 ^ K - l.length) true).length =
      2 ^ K := by
    rw [List.length_append, List.length_replicate]
    omega
  have hs := sched_sorted_bool K _ hfull
  rw [hpad] at hs
  exact (List.pairwise_append.mp hs).1

theorem sched_sorted_le {β : Type} [LinearOrder β] (K : Nat) (l : List β)
    (hlen : l.length ≤ 2 ^ K) :
    List.Sorted (· ≤ ·) (bitonicSortSched min max K l) := by
  apply sorted_of_mono_bool
  intro f hf
  rw [map_bitonicSortSched min max min max f (fun a b => hf.map_min)
    (fun a b => hf.map_max) K l]
  apply sched_sorted_bool_le
  rw [List.length_map]
  exact hlen

theorem key_cmpLo (key : Nat → Int) (a b : Nat) :
    key (cmpLo key a b) = min (key a) (key b) := by
  unfold cmpLo
  by_cases h : key b < key a
  · rw [if_pos h, min_eq_right (le_of_lt h)]
  · rw [if_neg h, min_eq_left (le_of_not_lt h)]

theorem key_cmpHi (key : Nat → Int) (a b : Nat) :
    key (cmpHi key a b) = max (key a) (key b) := by
  unfold cmpHi
  by_cases h : key b < key a
  · rw [if_pos h, max_eq_left (le_of_lt h)]
  · rw [if_neg h, max_eq_right (le_of_not_lt h)]

/-- C7: for every input row count, including counts that are not a power of
two (`rindex.length ≤ 2^K`, where `2^K` is the power of two the schedule is
sized for), the composed sort fallback — block phases of a reversing pass
followed by descending straight passes, exactly the pass structure of
`gpupreagg_bitonic_local`, `gpupreagg_bitonic_step` and
`gpupreagg_bitonic_merge` — leaves the row-index array ordered by the
key-compare function, and the result is a permutation of the input rows.
The boundary guard (`idx1 < nrows`) makes every out-of-range comparison a
no-op; the proof treats a guarded pass as a full pass on an array padded
with maximal keys. -/
theorem c7_sort_fallback_sorts (key : Nat → Int) (K : Nat)
    (rindex : List Nat) (hlen : rindex.length ≤ 2 ^ K) :
    List.Pairwise (fun a b => key a ≤ key b)
      (gpupreagg_bitonic_sortall key K rindex) ∧
    (gpupreagg_bitonic_sortall key K rindex).Perm rindex := by
  constructor
  · have hmap : (gpupreagg_bitonic_sortall key K rindex).map key =
        bitonicSortSched min max K (rindex.map key) := by
      unfold gpupreagg_bitonic_sortall
      exact map_bitonicSortSched (cmpLo key) (cmpHi key) min max key
        (key_cmpLo key) (key_cmpHi key) K rindex
    have hs : List.Sorted (· ≤ ·)
        ((gpupreagg_bitonic_sortall key K rindex).map key) := by
      rw [hmap]
      exact sched_sorted_le K (rindex.map key)
        (by rw [List.length_map]; exact hlen)
    exact List.pairwise_map.mp hs
  · exact bitonicSortSched_perm (cmpLo key) (cmpHi key) (cmp_exchange key)
      K rindex

theorem c7_witness :
    ([0, 1, 2, 3, 4, 5, 6] : List Nat).length ≤ 2 ^ 3 ∧
    (List.Pairwise
        (fun a b : Nat => (7 : Int) - (a : Int) ≤ (7 : Int) - (b : Int))
        (gpupreagg_bitonic_sortall (fun i : Nat => (7 : Int) - (i : Int)) 3
          [0, 1, 2, 3, 4, 5, 6]) ∧
      (gpupreagg_bitonic_sortall (fun i : Nat => (7 : Int) - (i : Int)) 3
        [0, 1, 2, 3, 4, 5, 6]).Perm [0, 1, 2, 3, 4, 5, 6]) :=
  ⟨by decide,
    c7_sort_fallback_sorts (fun i : Nat => (7 : Int) - (i : Int)) 3
      [0, 1, 2, 3, 4, 5, 6] (by decide)⟩

end PGStrom
